import Mathlib

/-!
Verification development for the `work-serch` CV analyzer/optimizer.

The Python modules `cv_analyzer.py` and `cv_optimizer.py` are shallowly
embedded below.  Text is a `List Char`; the embedding models the ASCII
range, over which all catalog entries and all regular-expression
character classes of the source are defined:

* `str.lower` is modelled by `lowCh` (the 26 basic-latin upper-case
  letters map to lower case, every other character is fixed);
* the `re` class `\w` is `isWordCh` (alphanumeric or underscore),
  `\s` is `isSpaceCh` (the six ASCII whitespace characters);
* `re.IGNORECASE` literal matching compares `lowCh`-images;
* `re.sub` / `str.count` scan left to right and never overlap matches,
  which the recursive scanners below reproduce;
* Python's `int()` truncation on our non-negative rational values is
  `Int.floor`; float arithmetic is modelled exactly over `ℚ` (the only
  inexact constants, 0.4 and 0.3, occur in magnitude comparisons whose
  outcome agrees with the exact rational one on integer operands).
-/

/-- ASCII word character, the `re` class `\w`: letters, digits, underscore. -/
def isWordCh (c : Char) : Bool := c.isAlphanum || c = '_'

/-- ASCII whitespace, the `re` class `\s` and the default `str.strip` set. -/
def isSpaceCh (c : Char) : Bool :=
  c = ' ' || c = '\t' || c = '\n' || c = '\r' || c = '\x0b' || c = '\x0c'

/-- `str.lower` on one character (ASCII model): the 26 upper-case basic
latin letters map to their lower-case forms; everything else is fixed. -/
def lowCh (c : Char) : Char :=
  if c = 'A' then 'a' else if c = 'B' then 'b' else if c = 'C' then 'c'
  else if c = 'D' then 'd' else if c = 'E' then 'e' else if c = 'F' then 'f'
  else if c = 'G' then 'g' else if c = 'H' then 'h' else if c = 'I' then 'i'
  else if c = 'J' then 'j' else if c = 'K' then 'k' else if c = 'L' then 'l'
  else if c = 'M' then 'm' else if c = 'N' then 'n' else if c = 'O' then 'o'
  else if c = 'P' then 'p' else if c = 'Q' then 'q' else if c = 'R' then 'r'
  else if c = 'S' then 's' else if c = 'T' then 't' else if c = 'U' then 'u'
  else if c = 'V' then 'v' else if c = 'W' then 'w' else if c = 'X' then 'x'
  else if c = 'Y' then 'y' else if c = 'Z' then 'z' else c

/-- `str.upper` on one character (ASCII model). -/
def upCh (c : Char) : Char :=
  if c = 'a' then 'A' else if c = 'b' then 'B' else if c = 'c' then 'C'
  else if c = 'd' then 'D' else if c = 'e' then 'E' else if c = 'f' then 'F'
  else if c = 'g' then 'G' else if c = 'h' then 'H' else if c = 'i' then 'I'
  else if c = 'j' then 'J' else if c = 'k' then 'K' else if c = 'l' then 'L'
  else if c = 'm' then 'M' else if c = 'n' then 'N' else if c = 'o' then 'O'
  else if c = 'p' then 'P' else if c = 'q' then 'Q' else if c = 'r' then 'R'
  else if c = 's' then 'S' else if c = 't' then 'T' else if c = 'u' then 'U'
  else if c = 'v' then 'V' else if c = 'w' then 'W' else if c = 'x' then 'X'
  else if c = 'y' then 'Y' else if c = 'z' then 'Z' else c

/-- `str.lower` on a text. -/
def lowS (l : List Char) : List Char := l.map lowCh

/-- Python's substring test `pat in s` (both arguments taken verbatim). -/
def subOcc (pat : List Char) : List Char → Bool
  | [] => pat.isPrefixOf []
  | c :: cs => pat.isPrefixOf (c :: cs) || subOcc pat cs

/-- `str.count`: the number of non-overlapping occurrences of `pat`,
scanning left to right.  The first argument is a skip counter: after a
hit the scanner consumes the rest of the matched occurrence before
resuming.  (Defined for non-empty `pat`; every pattern the source counts
is non-empty.) -/
def countOccurAux (pat : List Char) : Nat → List Char → Nat
  | _, [] => 0
  | k + 1, _ :: cs => countOccurAux pat k cs
  | 0, c :: cs =>
    if pat.isPrefixOf (c :: cs) && !pat.isEmpty then
      1 + countOccurAux pat (pat.length - 1) cs
    else
      countOccurAux pat 0 cs

/-- `str.count pat`. -/
def countOccur (pat s : List Char) : Nat := countOccurAux pat 0 s

/-- `re.compile(re.escape(pat), re.IGNORECASE).sub(rep, s)`: replace every
non-overlapping, case-insensitive occurrence of the literal `pat`,
scanning left to right.  The first argument is a skip counter consuming
the remainder of a matched occurrence.  (Defined for non-empty `pat`;
every catalog weak phrase is non-empty.) -/
def replaceAllCIAux (pat rep : List Char) : Nat → List Char → List Char
  | _, [] => []
  | k + 1, _ :: cs => replaceAllCIAux pat rep k cs
  | 0, c :: cs =>
    if (lowS pat).isPrefixOf (lowS (c :: cs)) && !pat.isEmpty then
      rep ++ replaceAllCIAux pat rep (pat.length - 1) cs
    else
      c :: replaceAllCIAux pat rep 0 cs

/-- Case-insensitive replace-all of the literal `pat` by `rep`. -/
def replaceAllCI (pat rep s : List Char) : List Char :=
  replaceAllCIAux pat rep 0 s

/-- `CVOptimizer.PHRASE_IMPROVEMENTS`: weak phrase to `|`-separated strong
alternatives, in declaration order. -/
def PHRASE_IMPROVEMENTS : List (String × String) :=
  [("responsible for", "managed|led|oversaw|directed"),
   ("worked on", "developed|implemented|created|built"),
   ("helped with", "contributed to|supported|facilitated"),
   ("duties included", "key achievements included|delivered"),
   ("involved in", "participated in|collaborated on|executed"),
   ("was part of", "contributed to|served on|member of"),
   ("did", "performed|executed|completed|accomplished"),
   ("made", "created|developed|produced|generated"),
   ("got", "achieved|obtained|secured|acquired")]

/-- `strong_options.split('|')[0]`. -/
def firstAlt (opts : List Char) : List Char := opts.takeWhile (fun c => c ≠ '|')

/-- Python `str.capitalize()`: first character upper-cased, the rest
lower-cased. -/
def pyCapitalize : List Char → List Char
  | [] => []
  | c :: cs => upCh c :: lowS cs

/-- `weak[0].isupper()` (false on the empty string, which Python would
reject by raising; no catalog key is empty). -/
def headIsUpper : List Char → Bool
  | [] => false
  | c :: _ => c.isUpper

/-- One iteration of the loop in `CVOptimizer._improve_weak_phrases`:
search the text for `weak` case-insensitively and, if present, substitute
the first strong alternative everywhere (capitalized when the catalog key
itself starts upper-case — it never does). -/
def phraseStage (weak strongOpts s : List Char) : List Char :=
  let strong := firstAlt strongOpts
  let rep := if headIsUpper weak then pyCapitalize strong else strong
  if subOcc (lowS weak) (lowS s) then replaceAllCI weak rep s else s

/-- `CVOptimizer._improve_weak_phrases` on character lists. -/
def improveWeakPhrasesL (s : List Char) : List Char :=
  PHRASE_IMPROVEMENTS.foldl (fun acc p => phraseStage p.1.data p.2.data acc) s

/-- `CVOptimizer._improve_weak_phrases`. -/
def improveWeakPhrases (text : String) : String :=
  ⟨improveWeakPhrasesL text.data⟩

/-- Length of the leading whitespace run (the greedy `\s+`). -/
def wsRun (l : List Char) : Nat := (l.takeWhile isSpaceCh).length

/-- The trailing `\b` of a section-header pattern: satisfied at the end of
the text or before a non-word character. -/
def rightBd : List Char → Bool
  | [] => true
  | c :: _ => !(isWordCh c)

/-- Match of the section-header regex `\bw1\s+w2\b` at the head of `s`
(the leading `\b` is checked by the scanner `subSec`): `w1`
case-insensitively, then a non-empty whitespace run, then `w2`
case-insensitively, then a trailing boundary.  Returns the match length.
`\s+` is greedy and, since `w2` starts with a letter, only the maximal
whitespace run can be followed by a `w2` match, so no backtracking
arises. -/
def matchSec (w1 w2 s : List Char) : Option Nat :=
  if (lowS w1).isPrefixOf (lowS s) then
    let r := List.drop w1.length s
    let k := wsRun r
    if 0 < k && (lowS w2).isPrefixOf (lowS (List.drop k r)) &&
        rightBd (List.drop (k + w2.length) r) then
      some (w1.length + k + w2.length)
    else none
  else none

/-- `re.sub(r'\bw1\s+w2\b', rep, s, flags=re.IGNORECASE)`, scanning left
to right.  `prevW` records whether the previous character is a word
character (`false` at the start of the text), which decides the leading
`\b`: since `w1` begins with a letter, the boundary holds exactly when
the previous character is not a word character.  After a replacement the
flag is `true` because every `w2` ends with a letter. -/
def subSecAux (w1 w2 rep : List Char) : Nat → Bool → List Char → List Char
  | _, _, [] => []
  | k + 1, fl, _ :: cs => subSecAux w1 w2 rep k fl cs
  | 0, prevW, c :: cs =>
    match (if prevW then none else matchSec w1 w2 (c :: cs)) with
    | some m => rep ++ subSecAux w1 w2 rep (m - 1) true cs
    | none => c :: subSecAux w1 w2 rep 0 (isWordCh c) cs

/-- The section-header substitution, started with `prevW` as the wordness
of the character preceding the scanned text (`false` at text start). -/
def subSec (w1 w2 rep : List Char) (prevW : Bool) (s : List Char) :
    List Char :=
  subSecAux w1 w2 rep 0 prevW s

/-- `CVOptimizer._standardize_sections` mapping table: each pattern
`\bw1\s+w2\b` (all ten are two-word patterns) with its canonical
replacement, in declaration order. -/
def SECTION_MAPPINGS : List (String × String × String) :=
  [("employment", "history", "WORK EXPERIENCE"),
   ("job", "history", "WORK EXPERIENCE"),
   ("professional", "experience", "WORK EXPERIENCE"),
   ("educational", "background", "EDUCATION"),
   ("academic", "background", "EDUCATION"),
   ("core", "competencies", "SKILLS"),
   ("technical", "skills", "TECHNICAL SKILLS"),
   ("professional", "summary", "SUMMARY"),
   ("career", "summary", "SUMMARY"),
   ("about", "me", "SUMMARY")]

/-- `CVOptimizer._standardize_sections` on character lists. -/
def standardizeSectionsL (s : List Char) : List Char :=
  SECTION_MAPPINGS.foldl
    (fun acc m => subSec m.1.data m.2.1.data m.2.2.data false acc) s

/-- `re.sub(r'[•●■▪▸►]', '-', ·)`. -/
def mapBullet (c : Char) : Char :=
  if c = '•' || c = '●' || c = '■' || c = '▪' || c = '▸' || c = '►' then '-' else c

/-- `re.sub(r'—', '-', ·)`. -/
def mapDash (c : Char) : Char := if c = '—' then '-' else c

/-- `re.sub(r'["“”]', chr(34), ·)` (straight and curly double quotes to a
straight double quote). -/
def mapDq (c : Char) : Char := if c = '"' || c = '“' || c = '”' then '"' else c

/-- `re.sub(r"['‘’]", chr(39), ·)` (straight and curly single quotes to a
straight apostrophe). -/
def mapSq (c : Char) : Char := if c = '\'' || c = '‘' || c = '’' then '\'' else c

/-- `re.sub(r' +', ' ', ·)`: collapse every run of spaces to one space.
The flag records whether the scanner is inside a space run. -/
def collapseSpacesAux (inRun : Bool) : List Char → List Char
  | [] => []
  | c :: cs =>
    if c = ' ' then
      (if inRun then [] else [' ']) ++ collapseSpacesAux true cs
    else c :: collapseSpacesAux false cs

/-- `re.sub(r' +', ' ', ·)`. -/
def collapseSpaces (s : List Char) : List Char := collapseSpacesAux false s

/-- Emit a pending newline run: three or more become exactly two, shorter
runs are kept verbatim. -/
def emitNl (k : Nat) : List Char :=
  if 3 ≤ k then ['\n', '\n'] else List.replicate k '\n'

/-- `re.sub(r'\n{3,}', '\n\n', ·)`: the counter is the length of the
pending newline run. -/
def collapseNlAux (k : Nat) : List Char → List Char
  | [] => emitNl k
  | c :: cs =>
    if c = '\n' then collapseNlAux (k + 1) cs
    else emitNl k ++ c :: collapseNlAux 0 cs

/-- `re.sub(r'\n{3,}', '\n\n', ·)`. -/
def collapseNl (s : List Char) : List Char := collapseNlAux 0 s

/-- `CVOptimizer._clean_formatting` on character lists: bullet, em-dash
and quote normalization (character maps), then space-run collapsing, then
newline-run collapsing, in source order. -/
def cleanFormattingL (s : List Char) : List Char :=
  collapseNl (collapseSpaces ((((s.map mapBullet).map mapDash).map mapDq).map mapSq))

/-- `CVOptimizer.optimize_cv_text`: the three rewrite stages in order.
The `target_role` and `industry` parameters are accepted and ignored,
exactly as in the source body. -/
def optimizeCvText (cvText _targetRole _industry : String) : String :=
  ⟨cleanFormattingL (standardizeSectionsL (improveWeakPhrasesL cvText.data))⟩

/-- Maximal runs of word characters of a text, in order.  `cur` is the
reversed run being accumulated. -/
def wordRunsAux (cur : List Char) : List Char → List (List Char)
  | [] => if cur.isEmpty then [] else [cur.reverse]
  | c :: cs =>
    if isWordCh c then wordRunsAux (c :: cur) cs
    else (if cur.isEmpty then [] else [cur.reverse]) ++ wordRunsAux [] cs

/-- Maximal runs of word characters of a text, in order. -/
def wordRuns (l : List Char) : List (List Char) := wordRunsAux [] l

/-- `re.findall(r'\b[a-zA-Z]{3,}\b', s)` (same matches as
`\b[A-Za-z]{3,}\b`): the maximal word-character runs that consist solely
of letters and have length at least three.  A letter run adjacent to a
digit or underscore fails the `\b`/`{3,}` combination at every starting
offset and produces no match, so exactly the all-letter runs remain. -/
def findWords (l : List Char) : List (List Char) :=
  (wordRuns l).filter (fun r => 3 ≤ r.length && r.all Char.isAlpha)

/-- One step of Python dict frequency counting: bump the count of `w`,
keeping first-insertion order, or append `(w, 1)`. -/
def bump : List (String × Nat) → String → List (String × Nat)
  | [], w => [(w, 1)]
  | (k, v) :: rest, w =>
    if k = w then (k, v + 1) :: rest else (k, v) :: bump rest w

/-- Frequency dictionary of a word list, in first-seen key order
(Python `dict` insertion order). -/
def buildFreq (ws : List String) : List (String × Nat) := ws.foldl bump []

/-- The stop-word list of `CVOptimizer.optimize_for_job_description`. -/
def STOP_WORDS : List String := ["the", "and", "for", "with", "that", "this"]

/-- The lower-cased words of the job description that survive the
stop-word filter (the multiset the frequency dictionary is built from). -/
def jdKeywordPool (jobDescription : String) : List String :=
  ((findWords jobDescription.data).map (fun w => String.mk (lowS w))).filter
    (fun w => !STOP_WORDS.contains w)

/-- The keywords of frequency at least 3, in first-seen order
(`important_keywords` in the source). -/
def importantKeywords (jobDescription : String) : List String :=
  ((buildFreq (jdKeywordPool jobDescription)).filter
    (fun wf => 3 ≤ wf.2)).map Prod.fst

/-- The important keywords absent from the lower-cased CV
(`missing_keywords` in the source). -/
def missingKeywords (cvText jobDescription : String) : List String :=
  (importantKeywords jobDescription).filter
    (fun kw => !subOcc kw.data (lowS cvText.data))

/-- `', '.join`. -/
def joinComma : List String → String
  | [] => ""
  | [w] => w
  | w :: ws => w ++ ", " ++ joinComma ws

/-- The single suggestion string emitted when keywords are missing. -/
def suggestionText (missing : List String) : String :=
  "Consider incorporating these keywords from the job description: " ++
    joinComma (missing.take 10)

/-- `CVOptimizer.optimize_for_job_description`. -/
def optimizeForJobDescription (cvText jobDescription : String) :
    String × List String :=
  let missing := missingKeywords cvText jobDescription
  let suggestions :=
    if missing ≠ [] then [suggestionText missing] else []
  (optimizeCvText cvText "" "", suggestions)

/-! The analyzer, `cv_analyzer.py`. -/

/-- `str.split('\n')`: split at every newline, keeping empty pieces. -/
def splitNl : List Char → List (List Char)
  | [] => [[]]
  | c :: cs =>
    if c = '\n' then [] :: splitNl cs
    else
      match splitNl cs with
      | [] => [[c]]
      | l :: ls => (c :: l) :: ls

/-- Python `str.strip()`: remove leading and trailing whitespace. -/
def stripWs (l : List Char) : List Char :=
  ((l.dropWhile isSpaceCh).reverse.dropWhile isSpaceCh).reverse

/-- Python `str.split()` with no argument: the maximal non-whitespace
runs.  `cur` is the reversed run being accumulated. -/
def splitWsAux (cur : List Char) : List Char → List (List Char)
  | [] => if cur.isEmpty then [] else [cur.reverse]
  | c :: cs =>
    if isSpaceCh c then
      (if cur.isEmpty then [] else [cur.reverse]) ++ splitWsAux [] cs
    else splitWsAux (c :: cur) cs

/-- Python `str.split()` with no argument. -/
def splitWs (l : List Char) : List (List Char) := splitWsAux [] l

/-- `CVAnalyzer.STANDARD_SECTIONS`. -/
def STANDARD_SECTIONS : List String :=
  ["work experience", "professional experience", "employment history",
   "education", "skills", "technical skills", "certifications",
   "summary", "professional summary", "objective", "profile",
   "achievements", "accomplishments", "projects", "publications"]

/-- `CVAnalyzer.ACTION_VERBS`. -/
def ACTION_VERBS : List String :=
  ["achieved", "implemented", "developed", "managed", "led", "created",
   "improved", "increased", "decreased", "optimized", "delivered",
   "designed", "built", "established", "launched", "spearheaded",
   "orchestrated", "transformed", "streamlined", "negotiated", "directed"]

/-- Python's `int()` on a rational value: truncation toward zero. -/
def pyInt (q : ℚ) : ℤ := if 0 ≤ q then ⌊q⌋ else ⌈q⌉

/-- `CVAnalyzer._analyze_sections`: `min(100, found/5*100)` — the number
of catalog section names occurring in the lower-cased CV, times 20,
capped at 100 (`found/5*100` is the exact float `found * 20`). -/
def analyzeSections (cvLower : List Char) : ℕ :=
  min 100 ((STANDARD_SECTIONS.countP (fun sec => subOcc sec.data cvLower)) * 20)

/-- `CVAnalyzer._analyze_keywords`: keyword score and keyword dictionary. -/
def analyzeKeywords (cvText jobDescription : String) :
    ℤ × List (String × ℕ) :=
  if jobDescription ≠ "" then
    let jdWordFreq :=
      buildFreq ((findWords (lowS jobDescription.data)).map
        (fun w => String.mk w))
    let cvLower := lowS cvText.data
    let keywords :=
      (jdWordFreq.filter (fun wf => 2 < wf.2 && subOcc wf.1.data cvLower)).map
        (fun wf => (wf.1, countOccur wf.1.data cvLower))
    let important := jdWordFreq.filter (fun wf => 2 < wf.2)
    if important ≠ [] then
      (pyInt ((keywords.length : ℚ) / (important.length : ℚ) * 100), keywords)
    else (50, keywords)
  else (50, [])

/-- `CVAnalyzer._check_formatting`: the ordered issue list. -/
def checkFormatting (cvText : String) : List String :=
  let t := cvText.data
  (if t.any (fun c => c = '|') then
    ["Contains pipe characters which may confuse ATS systems"] else []) ++
  (if t.any (fun c => c = '•' || c = '‣' || c = '◦' || c = '⁃' || c = '∙') then
    ["Contains special bullet points which may confuse ATS systems"] else []) ++
  (if t.any (fun c => 128 ≤ c.toNat) then
    ["Contains non-ASCII characters which may confuse ATS systems"] else []) ++
  (if 10 < t.count '\t' then
    ["Possible table formatting detected - may not parse well in ATS"] else []) ++
  (if ((splitNl t).length : ℚ) * (3 / 10) <
      ((splitNl t).countP
        (fun l => 0 < (stripWs l).length && (stripWs l).length < 20) : ℚ) then
    ["Many short lines detected - possible column formatting issues"] else [])

/-- `CVAnalyzer._analyze_action_verbs`. -/
def analyzeActionVerbs (cvLower : List Char) : ℤ :=
  let cnt := (ACTION_VERBS.map (fun v => countOccur v.data cvLower)).sum
  let words := splitWs cvLower
  if 0 < words.length then
    min 100 (pyInt ((cnt : ℚ) / (words.length : ℚ) * 1000))
  else 0

/-- The greedy scanner for `re.findall(r'\b\d+[%\w]*\b', ·)`: a match
starts at a digit preceded by a non-word character (or the text start);
`\d+[%\w]*` greedily reaches the end of the maximal `[%\w]` run and the
trailing `\b` backtracks to just after the run's last word character
(which exists — the leading digit is one).  Scanning resumes after the
match; `prevW` tracks the wordness of the previous character. -/
def scanNumAux : Nat → Bool → List Char → Nat
  | _, _, [] => 0
  | k + 1, fl, _ :: cs => scanNumAux k fl cs
  | 0, prevW, c :: cs =>
    if !prevW && c.isDigit then
      let run := c :: cs.takeWhile (fun d => d = '%' || isWordCh d)
      let m := run.length - (run.reverse.takeWhile (fun d => !isWordCh d)).length
      1 + scanNumAux (m - 1) true cs
    else scanNumAux 0 (isWordCh c) cs

/-- `len(re.findall(r'\b\d+[%\w]*\b', cvText))`. -/
def countNumTokens (t : List Char) : Nat := scanNumAux 0 false t

/-- `CVAnalyzer._analyze_quantification`: the step function over the
number of numeric tokens. -/
def analyzeQuantification (cvText : String) : ℤ :=
  let n := countNumTokens cvText.data
  if 10 < n then 100 else if 5 < n then 75 else if 2 < n then 50 else 25

/-- `CVAnalyzer._calculate_ats_score`: weighted section/keyword scores
minus a capped deduction for formatting issues, floored at 0, truncated. -/
def calculateAtsScore (sectionScore : ℕ) (numIssues : ℕ)
    (keywordScore : ℤ) : ℤ :=
  let score : ℚ := (sectionScore : ℚ) * (4 / 10) + (keywordScore : ℚ) * (4 / 10)
  let deduction : ℚ := min 30 ((numIssues : ℚ) * 10)
  pyInt (max 0 (score - deduction))

/-- `CVAnalyzer._calculate_overall_score`. -/
def calculateOverallScore (atsScore actionVerbScore quantScore : ℤ) : ℤ :=
  pyInt ((atsScore : ℚ) * (5 / 10) + (actionVerbScore : ℚ) * (25 / 100) +
    (quantScore : ℚ) * (25 / 100))

/-- The scanner for `re.findall(r'\b\d+%', ·)`: a maximal digit run
starting at a word boundary and immediately followed by `%`. -/
def scanPctAux : Nat → Bool → List Char → Nat
  | _, _, [] => 0
  | k + 1, fl, _ :: cs => scanPctAux k fl cs
  | 0, prevW, c :: cs =>
    if !prevW && c.isDigit then
      let ds := cs.takeWhile Char.isDigit
      if (cs.drop ds.length).head? = some '%' then
        1 + scanPctAux (ds.length + 1) false cs
      else scanPctAux 0 (isWordCh c) cs
    else scanPctAux 0 (isWordCh c) cs

/-- `len(re.findall(r'\b\d+%', cvText))`. -/
def countPctTokens (t : List Char) : Nat := scanPctAux 0 false t

/-- `CVAnalyzer._identify_strengths`. -/
def identifyStrengths (cvText : String) (cvLower : List Char) : List String :=
  let strengths :=
    (if 3 < countPctTokens cvText.data then
      ["Good use of quantified achievements with percentages"] else []) ++
    (if 10 < (ACTION_VERBS.map (fun v => countOccur v.data cvLower)).sum then
      ["Strong use of action verbs to describe responsibilities"] else []) ++
    (if ["experience", "education", "skills"].all
        (fun sec => subOcc sec.data cvLower) then
      ["Contains all essential CV sections"] else []) ++
    (if 300 < (splitWs cvText.data).length ∧ (splitWs cvText.data).length < 800 then
      ["Appropriate length - concise yet comprehensive"] else [])
  if strengths ≠ [] then strengths else ["CV structure is present"]

/-- `CVAnalyzer._identify_weaknesses`. -/
def identifyWeaknesses (cvText : String) (cvLower : List Char)
    (formattingIssues : List String) : List String :=
  let wordCount := (splitWs cvText.data).length
  let weaknesses :=
    (if !subOcc "experience".data cvLower && !subOcc "employment".data cvLower
     then ["Missing work experience section"] else []) ++
    (if !subOcc "education".data cvLower then
      ["Missing education section"] else []) ++
    (if !subOcc "skills".data cvLower then ["Missing skills section"] else []) ++
    (if 3 < (["responsible for", "duties included", "worked on"].map
        (fun p => countOccur p.data cvLower)).sum then
      ["Overuse of weak phrases - use stronger action verbs"] else []) ++
    (if wordCount < 200 then
      ["CV is too short - add more detail about achievements"]
     else if 1000 < wordCount then
      ["CV is too long - focus on most relevant information"] else []) ++
    (if formattingIssues ≠ [] then
      ["ATS formatting concerns: " ++ toString formattingIssues.length ++
        " issues detected"] else [])
  if weaknesses ≠ [] then weaknesses else ["Minor improvements could be made"]

/-- `CVAnalyzer._generate_recommendations`. -/
def generateRecommendations (weaknesses formattingIssues : List String)
    (keywordScore actionVerbScore : ℤ) : List String :=
  (if formattingIssues ≠ [] then
    ["CRITICAL: Fix ATS formatting issues - use simple formatting, standard fonts, and avoid tables/columns"]
   else []) ++
  (if weaknesses.any (fun w => subOcc "missing".data (lowS w.data)) then
    ["Add all essential sections: Professional Summary, Work Experience, Education, Skills, and relevant certifications"]
   else []) ++
  (if keywordScore < 60 then
    ["Optimize keywords: Review the job description and naturally incorporate relevant terms and skills throughout your CV"]
   else []) ++
  (if actionVerbScore < 50 then
    ["Strengthen impact: Replace weak phrases with strong action verbs (e.g., 'managed', 'developed', 'achieved', 'implemented')"]
   else []) ++
  (if !weaknesses.any (fun s => subOcc "quantified".data (lowS s.data)) then
    ["Add quantifiable achievements: Include specific numbers, percentages, and metrics to demonstrate impact (e.g., 'Increased sales by 25%')"]
   else []) ++
  ["Tailor your CV: Customize it for each application to match the specific job requirements and company culture"]

/-- `CVAnalysisResult` (the dataclass of `cv_analyzer.py`). -/
structure CVAnalysisResult where
  overall_score : ℤ
  ats_compatibility_score : ℤ
  strengths : List String
  weaknesses : List String
  recommendations : List String
  keyword_analysis : List (String × ℕ)
  formatting_issues : List String
deriving Repr, DecidableEq

/-- `CVAnalyzer.analyze_cv`. -/
def analyzeCv (cvText jobDescription : String) : CVAnalysisResult :=
  let cvLower := lowS cvText.data
  let sectionScore := analyzeSections cvLower
  let kw := analyzeKeywords cvText jobDescription
  let formattingIssues := checkFormatting cvText
  let actionVerbScore := analyzeActionVerbs cvLower
  let quantificationScore := analyzeQuantification cvText
  let atsScore := calculateAtsScore sectionScore formattingIssues.length kw.1
  let overallScore :=
    calculateOverallScore atsScore actionVerbScore quantificationScore
  let weaknesses := identifyWeaknesses cvText cvLower formattingIssues
  { overall_score := overallScore
    ats_compatibility_score := atsScore
    strengths := identifyStrengths cvText cvLower
    weaknesses := weaknesses
    recommendations :=
      generateRecommendations weaknesses formattingIssues kw.1 actionVerbScore
    keyword_analysis := kw.2
    formatting_issues := formattingIssues }

/-- The column-layout condition as the claim words it: more than 30% of
the document's NON-EMPTY lines are shorter than 20 characters (stated
from the specification for comparison with the source's condition, which
divides by the total line count and measures stripped lengths). -/
def claimColumnCond (cvText : String) : Bool :=
  let nonEmpty := (splitNl cvText.data).filter (fun l => !l.isEmpty)
  decide ((nonEmpty.length : ℚ) * (3 / 10) <
    (nonEmpty.countP (fun l => l.length < 20) : ℚ))

/-! Generic helpers about membership and counts in optional singleton
blocks, used to reason about the issue list of `_check_formatting`. -/

theorem mem_ite_singleton {α : Type} [DecidableEq α] (a b : α) (c : Prop)
    [Decidable c] : (a ∈ if c then [b] else []) ↔ c ∧ a = b := by
  split_ifs with h <;> simp [h, eq_comm]

theorem count_ite_singleton_ne {α : Type} [DecidableEq α] (a b : α)
    (c : Prop) [Decidable c] (h : a ≠ b) :
    (if c then [b] else []).count a = 0 := by
  split_ifs <;> simp [List.count_cons, h, Ne.symm h]

theorem count_ite_singleton_le {α : Type} [DecidableEq α] (a b : α)
    (c : Prop) [Decidable c] : (if c then [b] else []).count a ≤ 1 := by
  split_ifs
  all_goals simp [List.count_cons, List.count_nil]
  all_goals split_ifs
  all_goals omega

/-! Identity of the weak-phrase pass on occurrence-free text. -/

theorem phraseStage_id (weak strongOpts s : List Char)
    (h : subOcc (lowS weak) (lowS s) = false) :
    phraseStage weak strongOpts s = s := by
  simp [phraseStage, h]

theorem foldStages_id (l : List (String × String)) (s : List Char)
    (h : ∀ p ∈ l, subOcc (lowS p.1.data) (lowS s) = false) :
    l.foldl (fun acc p => phraseStage p.1.data p.2.data acc) s = s := by
  induction l with
  | nil => rfl
  | cons p ps ih =>
    simp only [List.foldl_cons]
    rw [phraseStage_id _ _ _ (h p (List.mem_cons_self _ _))]
    exact ih (fun q hq => h q (List.mem_cons_of_mem _ hq))

theorem improveWeakPhrasesL_id (s : List Char)
    (h : ∀ p ∈ PHRASE_IMPROVEMENTS, subOcc (lowS p.1.data) (lowS s) = false) :
    improveWeakPhrasesL s = s :=
  foldStages_id _ _ h

/-- C10: the rewritten document produced by `optimize_cv_text` does not
depend on the `target_role` and `industry` arguments — the body never
reads them, so any two role/industry pairs give identical output. -/
theorem claim10_role_industry_ignored (cvText r1 i1 r2 i2 : String) :
    optimizeCvText cvText r1 i1 = optimizeCvText cvText r2 i2 := rfl

/-- C3 (code evaluation at the failing input): the weak-phrase pass maps
"Responsible for testing" to "managed testing" — the replacement stays
lower-case even though the matched occurrence begins with an upper-case
letter, because the source tests `weak[0].isupper()` on the catalog key
(always lower-case) instead of on the matched text. -/
theorem claim3_lowercase_replacement_at_capitalized_occurrence :
    improveWeakPhrases "Responsible for testing" = "managed testing" := by
  decide

/-- C6: with an empty job description the keyword analysis scores a
neutral 50 and returns an empty keyword mapping, and `analyze_cv`
propagates the empty mapping; no failure path exists. -/
theorem claim6_empty_jobdesc_neutral (cvText : String) :
    analyzeKeywords cvText "" = (50, []) ∧
    (analyzeCv cvText "").keyword_analysis = [] := by
  constructor
  · simp [analyzeKeywords]
  · simp [analyzeCv, analyzeKeywords]

/-- C2: the quantification sub-score is the step function of the number
of `\b\d+[%\w]*\b` matches: more than 10 gives 100, more than 5 gives
75, more than 2 gives 50, otherwise 25; in particular 11, 6, 3, 2 and 0
matches give 100, 75, 50, 25 and 25. -/
theorem claim2_quantification_step (cvText : String) :
    analyzeQuantification cvText =
      (if 10 < countNumTokens cvText.data then 100
       else if 5 < countNumTokens cvText.data then 75
       else if 2 < countNumTokens cvText.data then 50 else 25) ∧
    (countNumTokens cvText.data = 11 → analyzeQuantification cvText = 100) ∧
    (countNumTokens cvText.data = 6 → analyzeQuantification cvText = 75) ∧
    (countNumTokens cvText.data = 3 → analyzeQuantification cvText = 50) ∧
    (countNumTokens cvText.data = 2 → analyzeQuantification cvText = 25) ∧
    (countNumTokens cvText.data = 0 → analyzeQuantification cvText = 25) := by
  refine ⟨rfl, ?_, ?_, ?_, ?_, ?_⟩ <;>
    intro h <;> simp [analyzeQuantification, h]

/-- Witness for C2 at concrete inputs with exactly 11, 6, 3, 2 and 0
numeric tokens. -/
theorem claim2_quantification_step_witness :
    analyzeQuantification "1 2 3 4 5 6 7 8 9 10 11" = 100 ∧
    analyzeQuantification "1 2 3 4 5 6" = 75 ∧
    analyzeQuantification "1 2 3" = 50 ∧
    analyzeQuantification "1 2" = 25 ∧
    analyzeQuantification "" = 25 :=
  ⟨(claim2_quantification_step _).2.1 (by decide),
   (claim2_quantification_step _).2.2.1 (by decide),
   (claim2_quantification_step _).2.2.2.1 (by decide),
   (claim2_quantification_step _).2.2.2.2.1 (by decide),
   (claim2_quantification_step _).2.2.2.2.2 (by decide)⟩

/-- C4 (counterexample): the weak phrase "did" occurs in "candidate"
only as a fragment of a longer word, yet the substitution stage rewrites
it — the compiled patterns carry no word boundaries. -/
theorem claim4_counterexample :
    improveWeakPhrases "candidate" = "canperformedate" ∧
    improveWeakPhrases "candidate" ≠ "candidate" := by
  decide

/-- C4 (amended): the stage substitutes plain case-insensitive substring
occurrences (no word-boundary check), replacing each left-to-right
non-overlapping occurrence with the phrase's first strong alternative;
text free of case-insensitive occurrences of every catalog phrase is
left unchanged. -/
theorem claim4_amended_plain_substring :
    (∀ s : String,
      (∀ p ∈ PHRASE_IMPROVEMENTS, subOcc (lowS p.1.data) (lowS s.data) = false) →
      improveWeakPhrases s = s) ∧
    improveWeakPhrases "He worked on x and worked on y" =
      "He developed x and developed y" := by
  constructor
  · intro s h
    exact congrArg String.mk (improveWeakPhrasesL_id _ h)
  · decide

/-- Witness for the hypothesis-carrying part of the amended C4, at a
text containing no catalog phrase. -/
theorem claim4_amended_plain_substring_witness :
    (∀ p ∈ PHRASE_IMPROVEMENTS,
      subOcc (lowS p.1.data) (lowS "Experienced engineer".data) = false) ∧
    improveWeakPhrases "Experienced engineer" = "Experienced engineer" :=
  ⟨by decide, claim4_amended_plain_substring.1 "Experienced engineer" (by decide)⟩

/-- C9 (counterexample): no catalog first alternative contains a catalog
weak phrase, yet the pass is not idempotent: "gotid" becomes
"achievedid" (creating a fresh occurrence of "did" across the
replacement boundary), and a second pass changes that again. -/
theorem claim9_counterexample :
    (∀ p ∈ PHRASE_IMPROVEMENTS, ∀ q ∈ PHRASE_IMPROVEMENTS,
      subOcc (lowS q.1.data) (lowS (firstAlt p.2.data)) = false) ∧
    improveWeakPhrases (improveWeakPhrases "gotid") ≠
      improveWeakPhrases "gotid" := by
  decide

/-- C9 (amended): the weak-phrase pass is idempotent on any output that
contains no case-insensitive occurrence of a catalog weak phrase; the
catalog-level side condition of the claim is not sufficient because a
substitution can create a new weak-phrase occurrence spanning a
replacement boundary. -/
theorem claim9_amended_idempotent_on_clean_output (s : String)
    (h : ∀ p ∈ PHRASE_IMPROVEMENTS,
      subOcc (lowS p.1.data) (lowS (improveWeakPhrases s).data) = false) :
    improveWeakPhrases (improveWeakPhrases s) = improveWeakPhrases s := by
  show String.mk (improveWeakPhrasesL (improveWeakPhrases s).data) =
    improveWeakPhrases s
  rw [improveWeakPhrasesL_id (improveWeakPhrases s).data h]

/-- Witness for the amended C9: after rewriting "responsible for x" the
output "managed x" is occurrence-free and a second pass fixes it. -/
theorem claim9_amended_idempotent_on_clean_output_witness :
    (∀ p ∈ PHRASE_IMPROVEMENTS,
      subOcc (lowS p.1.data)
        (lowS (improveWeakPhrases "responsible for x").data) = false) ∧
    improveWeakPhrases (improveWeakPhrases "responsible for x") =
      improveWeakPhrases "responsible for x" :=
  ⟨by decide, claim9_amended_idempotent_on_clean_output "responsible for x" (by decide)⟩

/-- C5 (counterexample): in "ab\n\n\n\n" every non-empty line (the single
line "ab") is shorter than 20 characters — far more than 30% — yet the
source divides by the total line count (five lines here, four of them
empty) and appends no column-layout issue. -/
theorem claim5_counterexample :
    claimColumnCond "ab\n\n\n\n" = true ∧
    "Many short lines detected - possible column formatting issues" ∉
      checkFormatting "ab\n\n\n\n" := by
  have hne : ((splitNl "ab\n\n\n\n".data).filter (fun l => !l.isEmpty)) =
      [['a', 'b']] := by decide
  have hlen : (splitNl "ab\n\n\n\n".data).length = 5 := by decide
  have hshort : (splitNl "ab\n\n\n\n".data).countP
      (fun l => 0 < (stripWs l).length && (stripWs l).length < 20) = 1 := by
    decide
  have he1 : "ab\n\n\n\n".data.any (fun c => c = '|') = false := by decide
  have he2 : "ab\n\n\n\n".data.any
      (fun c => c = '•' || c = '‣' || c = '◦' || c = '⁃' || c = '∙') = false := by
    decide
  have he3 : "ab\n\n\n\n".data.any (fun c => 128 ≤ c.toNat) = false := by decide
  have he4 : "ab\n\n\n\n".data.count '\t' = 0 := by decide
  constructor
  · simp only [claimColumnCond, hne, decide_eq_true_eq]
    norm_num
  · simp only [checkFormatting, hlen, hshort, he1, he2, he3, he4]
    norm_num

/-- C5 (amended): the column-layout issue is appended exactly when the
number of lines whose whitespace-stripped length is strictly between 0
and 20 exceeds 30% of the TOTAL line count (empty lines included); the
possible-table issue is appended exactly when the document holds more
than 10 tab characters; each heuristic appends its string at most
once. -/
theorem claim5_amended_formatting_heuristics (cvText : String) :
    (("Many short lines detected - possible column formatting issues" ∈
        checkFormatting cvText) ↔
      (((splitNl cvText.data).length : ℚ) * (3 / 10) <
        ((splitNl cvText.data).countP
          (fun l => 0 < (stripWs l).length && (stripWs l).length < 20) : ℚ))) ∧
    (("Possible table formatting detected - may not parse well in ATS" ∈
        checkFormatting cvText) ↔ 10 < cvText.data.count '\t') ∧
    (checkFormatting cvText).count
      "Many short lines detected - possible column formatting issues" ≤ 1 ∧
    (checkFormatting cvText).count
      "Possible table formatting detected - may not parse well in ATS" ≤ 1 := by
  unfold checkFormatting
  refine ⟨?_, ?_, ?_, ?_⟩
  · simp only [List.mem_append, mem_ite_singleton]
    simp
  · simp only [List.mem_append, mem_ite_singleton]
    simp
  · simp only [List.count_append]
    have h1 := count_ite_singleton_ne
      "Many short lines detected - possible column formatting issues"
      "Contains pipe characters which may confuse ATS systems"
      (cvText.data.any (fun c => c = '|') = true) (by decide)
    have h2 := count_ite_singleton_ne
      "Many short lines detected - possible column formatting issues"
      "Contains special bullet points which may confuse ATS systems"
      (cvText.data.any
        (fun c => c = '•' || c = '‣' || c = '◦' || c = '⁃' || c = '∙') = true)
      (by decide)
    have h3 := count_ite_singleton_ne
      "Many short lines detected - possible column formatting issues"
      "Contains non-ASCII characters which may confuse ATS systems"
      (cvText.data.any (fun c => 128 ≤ c.toNat) = true) (by decide)
    have h4 := count_ite_singleton_ne
      "Many short lines detected - possible column formatting issues"
      "Possible table formatting detected - may not parse well in ATS"
      (10 < cvText.data.count '\t') (by decide)
    have h5 := count_ite_singleton_le
      "Many short lines detected - possible column formatting issues"
      "Many short lines detected - possible column formatting issues"
      (((splitNl cvText.data).length : ℚ) * (3 / 10) <
        ((splitNl cvText.data).countP
          (fun l => 0 < (stripWs l).length && (stripWs l).length < 20) : ℚ))
    omega
  · simp only [List.count_append]
    have h1 := count_ite_singleton_ne
      "Possible table formatting detected - may not parse well in ATS"
      "Contains pipe characters which may confuse ATS systems"
      (cvText.data.any (fun c => c = '|') = true) (by decide)
    have h2 := count_ite_singleton_ne
      "Possible table formatting detected - may not parse well in ATS"
      "Contains special bullet points which may confuse ATS systems"
      (cvText.data.any
        (fun c => c = '•' || c = '‣' || c = '◦' || c = '⁃' || c = '∙') = true)
      (by decide)
    have h3 := count_ite_singleton_ne
      "Possible table formatting detected - may not parse well in ATS"
      "Contains non-ASCII characters which may confuse ATS systems"
      (cvText.data.any (fun c => 128 ≤ c.toNat) = true) (by decide)
    have h4 := count_ite_singleton_le
      "Possible table formatting detected - may not parse well in ATS"
      "Possible table formatting detected - may not parse well in ATS"
      (10 < cvText.data.count '\t')
    have h5 := count_ite_singleton_ne
      "Possible table formatting detected - may not parse well in ATS"
      "Many short lines detected - possible column formatting issues"
      (((splitNl cvText.data).length : ℚ) * (3 / 10) <
        ((splitNl cvText.data).countP
          (fun l => 0 < (stripWs l).length && (stripWs l).length < 20) : ℚ))
      (by decide)
    omega

/-! Correctness of the insertion-ordered frequency dictionary, used to
settle the keyword-selection claim about
`optimize_for_job_description`. -/

/-- First value stored under key `w` (0 when absent; keys are unique in
every dictionary built by `bump`). -/
def lookupVal : List (String × Nat) → String → Nat
  | [], _ => 0
  | (k, v) :: rest, w => if k = w then v else lookupVal rest w

/-- The keys of a word list in first-seen order. -/
def firstSeen (ws : List String) : List String :=
  ws.foldl (fun ks w => if w ∈ ks then ks else ks ++ [w]) []

theorem lookupVal_bump_self (l : List (String × Nat)) (w : String) :
    lookupVal (bump l w) w = lookupVal l w + 1 := by
  induction l with
  | nil => simp [bump, lookupVal]
  | cons p rest ih =>
    obtain ⟨k, v⟩ := p
    by_cases h : k = w <;> simp [bump, lookupVal, h, ih]

theorem lookupVal_bump_other (l : List (String × Nat)) (w w' : String)
    (h : w' ≠ w) : lookupVal (bump l w) w' = lookupVal l w' := by
  induction l with
  | nil => simp [bump, lookupVal, Ne.symm h]
  | cons p rest ih =>
    obtain ⟨k, v⟩ := p
    by_cases hk : k = w
    · subst hk
      simp [bump, lookupVal, Ne.symm h]
    · by_cases hk' : k = w' <;>
        simp [bump, lookupVal, hk, hk', h, Ne.symm h, ih]

theorem keys_bump (l : List (String × Nat)) (w : String) :
    (bump l w).map Prod.fst =
      (if w ∈ l.map Prod.fst then l.map Prod.fst
       else l.map Prod.fst ++ [w]) := by
  induction l with
  | nil => simp [bump]
  | cons p rest ih =>
    obtain ⟨k, v⟩ := p
    by_cases h : k = w
    · simp [bump, h]
    · simp only [bump, if_neg h, List.map_cons, ih]
      by_cases hm : w ∈ rest.map Prod.fst <;>
        simp [hm, List.mem_cons, Ne.symm h]

theorem foldl_bump_lookup (ws : List String) (acc : List (String × Nat))
    (w : String) :
    lookupVal (ws.foldl bump acc) w = lookupVal acc w + ws.count w := by
  induction ws generalizing acc with
  | nil => simp
  | cons v rest ih =>
    simp only [List.foldl_cons, ih, List.count_cons]
    by_cases h : v = w
    · subst h
      rw [lookupVal_bump_self]
      simp
      omega
    · rw [lookupVal_bump_other _ _ _ (Ne.symm h)]
      simp [h]

theorem foldl_bump_keys (ws : List String) (acc : List (String × Nat)) :
    (ws.foldl bump acc).map Prod.fst =
      ws.foldl (fun ks w => if w ∈ ks then ks else ks ++ [w])
        (acc.map Prod.fst) := by
  induction ws generalizing acc with
  | nil => rfl
  | cons v rest ih =>
    simp only [List.foldl_cons, ih, keys_bump]

theorem buildFreq_keys (ws : List String) :
    (buildFreq ws).map Prod.fst = firstSeen ws :=
  foldl_bump_keys ws []

theorem nodup_foldl_bump (ws : List String) (acc : List (String × Nat))
    (h : (acc.map Prod.fst).Nodup) :
    ((ws.foldl bump acc).map Prod.fst).Nodup := by
  induction ws generalizing acc with
  | nil => exact h
  | cons v rest ih =>
    refine ih _ ?_
    rw [keys_bump]
    by_cases hm : v ∈ acc.map Prod.fst
    · simpa [hm] using h
    · simp only [if_neg hm]
      simpa [List.nodup_append, hm] using h

theorem lookupVal_of_mem (l : List (String × Nat)) (p : String × Nat)
    (hnd : (l.map Prod.fst).Nodup) (hp : p ∈ l) :
    lookupVal l p.1 = p.2 := by
  induction l with
  | nil => cases hp
  | cons q rest ih =>
    obtain ⟨k, v⟩ := q
    simp only [List.map_cons, List.nodup_cons] at hnd
    rcases List.mem_cons.mp hp with h | h
    · subst h
      simp [lookupVal]
    · have hk : k ≠ p.1 := by
        intro he
        exact hnd.1 (he ▸ (List.mem_map_of_mem Prod.fst h))
      simp only [lookupVal, if_neg hk]
      exact ih hnd.2 h

theorem buildFreq_value (ws : List String) (p : String × Nat)
    (hp : p ∈ buildFreq ws) : p.2 = ws.count p.1 := by
  have hnd : ((buildFreq ws).map Prod.fst).Nodup :=
    nodup_foldl_bump ws [] (by simp)
  have := lookupVal_of_mem (buildFreq ws) p hnd hp
  rw [← this]
  simpa [lookupVal] using foldl_bump_lookup ws [] p.1

theorem filter3_map_fst (l : List (String × Nat)) (f : String → Nat)
    (h : ∀ p ∈ l, p.2 = f p.1) :
    (l.filter (fun p => 3 ≤ p.2)).map Prod.fst =
      (l.map Prod.fst).filter (fun k => 3 ≤ f k) := by
  induction l with
  | nil => rfl
  | cons p rest ih =>
    have hp : p.2 = f p.1 := h p (List.mem_cons_self _ _)
    have hrest : ∀ q ∈ rest, q.2 = f q.1 :=
      fun q hq => h q (List.mem_cons_of_mem _ hq)
    by_cases hP : 3 ≤ f p.1
    · simp [List.filter_cons, hp, hP, ih hrest]
    · simp [List.filter_cons, hp, hP, ih hrest]

/-- The keyword-selection characterization behind claim C7: the
important keywords are exactly the first-seen, stop-word-free,
lower-cased job-description words of frequency at least 3, in first-seen
order. -/
theorem importantKeywords_characterization (jobDescription : String) :
    importantKeywords jobDescription =
      (firstSeen (jdKeywordPool jobDescription)).filter
        (fun w => 3 ≤ (jdKeywordPool jobDescription).count w) := by
  unfold importantKeywords
  rw [filter3_map_fst _ (fun w => (jdKeywordPool jobDescription).count w)
    (fun p hp => buildFreq_value _ p hp), buildFreq_keys]

/-- C7: `optimize_for_job_description` selects as important the
job-description words of length at least 3 outside the stop-word set
with frequency at least 3 (in first-seen order); when at least one of
them is absent from the lower-cased document it returns exactly one
suggestion string listing the first (up to) 10 missing keywords, and
when none is missing the suggestion list is empty. -/
theorem claim7_missing_keyword_suggestion (cvText jobDescription : String) :
    (optimizeForJobDescription cvText jobDescription).2.length ≤ 1 ∧
    ((optimizeForJobDescription cvText jobDescription).2 = [] ↔
      missingKeywords cvText jobDescription = []) ∧
    (missingKeywords cvText jobDescription ≠ [] →
      (optimizeForJobDescription cvText jobDescription).2 =
        [suggestionText (missingKeywords cvText jobDescription)]) ∧
    importantKeywords jobDescription =
      (firstSeen (jdKeywordPool jobDescription)).filter
        (fun w => 3 ≤ (jdKeywordPool jobDescription).count w) ∧
    missingKeywords cvText jobDescription =
      (importantKeywords jobDescription).filter
        (fun kw => !subOcc kw.data (lowS cvText.data)) := by
  refine ⟨?_, ?_, ?_, importantKeywords_characterization jobDescription, rfl⟩ <;>
    by_cases h : missingKeywords cvText jobDescription = [] <;>
      simp [optimizeForJobDescription, h]

/-- Witness for C7: the job description repeats "python" four times and
the CV lacks it, so exactly one suggestion string names it. -/
theorem claim7_missing_keyword_suggestion_witness :
    missingKeywords "java dev" "python python python python stack" ≠ [] ∧
    (optimizeForJobDescription "java dev"
        "python python python python stack").2 =
      ["Consider incorporating these keywords from the job description: python"] := by
  refine ⟨by decide, ?_⟩
  have h := (claim7_missing_keyword_suggestion "java dev"
    "python python python python stack").2.2.1 (by decide)
  rw [h]
  decide

/-! Bounds for the scoring pipeline (claim C1). -/

theorem pyInt_nonneg (q : ℚ) (h : 0 ≤ q) : 0 ≤ pyInt q := by
  unfold pyInt
  rw [if_pos h]
  exact Int.floor_nonneg.mpr h

theorem pyInt_le_int (q : ℚ) (n : ℤ) (h : q ≤ (n : ℚ)) : pyInt q ≤ n := by
  unfold pyInt
  split_ifs
  · exact (Int.floor_intCast (α := ℚ) n) ▸ Int.floor_le_floor h
  · exact Int.ceil_le.mpr h

theorem length_filter_implies {α : Type} (l : List α) (p q : α → Bool)
    (h : ∀ a, p a = true → q a = true) :
    (l.filter p).length ≤ (l.filter q).length := by
  induction l with
  | nil => exact Nat.le_refl _
  | cons a rest ih =>
    by_cases hp : p a = true
    · simp [List.filter_cons, hp, h a hp]
      omega
    · simp only [List.filter_cons]
      rw [if_neg (by simpa using hp)]
      split_ifs
      · refine le_trans ih ?_
        simp
      · exact ih

theorem pyInt_ratio_bounds (k n : ℕ) (hkn : k ≤ n) (hn : 0 < n) :
    0 ≤ pyInt ((k : ℚ) / (n : ℚ) * 100) ∧
    pyInt ((k : ℚ) / (n : ℚ) * 100) ≤ 100 := by
  constructor
  · exact pyInt_nonneg _ (by positivity)
  · refine pyInt_le_int _ 100 ?_
    have hnq : (0 : ℚ) < (n : ℚ) := by exact_mod_cast hn
    have hknq : (k : ℚ) ≤ (n : ℚ) := by exact_mod_cast hkn
    calc (k : ℚ) / (n : ℚ) * 100 ≤ 1 * 100 :=
          mul_le_mul_of_nonneg_right ((div_le_one hnq).mpr hknq) (by norm_num)
      _ = (100 : ℚ) := by norm_num

theorem analyzeKeywords_fst_bounds (cvText jobDescription : String) :
    0 ≤ (analyzeKeywords cvText jobDescription).1 ∧
    (analyzeKeywords cvText jobDescription).1 ≤ 100 := by
  unfold analyzeKeywords
  by_cases h1 : jobDescription ≠ ""
  · simp only [if_pos h1]
    set freq := buildFreq ((findWords (lowS jobDescription.data)).map
      (fun w => String.mk w)) with hfreq
    by_cases h2 : freq.filter (fun wf => 2 < wf.2) ≠ []
    · simp only [if_pos h2]
      have hkn :
          ((freq.filter (fun wf =>
            2 < wf.2 && subOcc wf.1.data (lowS cvText.data))).map
              (fun wf => (wf.1, countOccur wf.1.data (lowS cvText.data)))).length ≤
            (freq.filter (fun wf => 2 < wf.2)).length := by
        rw [List.length_map]
        refine length_filter_implies _ _ _ (fun a ha => ?_)
        simp only [Bool.and_eq_true] at ha
        exact ha.1
      have hn : 0 < (freq.filter (fun wf => 2 < wf.2)).length :=
        List.length_pos.mpr h2
      exact pyInt_ratio_bounds _ _ hkn hn
    · simp only [if_neg h2]
      norm_num
  · simp only [if_neg h1]
    norm_num

theorem calculateAtsScore_bounds (sec ni : ℕ) (kw : ℤ)
    (hsec : sec ≤ 100) (_hk0 : 0 ≤ kw) (hk1 : kw ≤ 100) :
    0 ≤ calculateAtsScore sec ni kw ∧ calculateAtsScore sec ni kw ≤ 100 := by
  unfold calculateAtsScore
  constructor
  · exact pyInt_nonneg _ (le_max_left _ _)
  · refine pyInt_le_int _ 100 ?_
    have h1 : ((sec : ℚ)) ≤ 100 := by exact_mod_cast hsec
    have h2 : ((kw : ℚ)) ≤ 100 := by exact_mod_cast hk1
    have h3 : (0 : ℚ) ≤ min 30 ((ni : ℚ) * 10) :=
      le_min (by norm_num) (by positivity)
    exact max_le (by norm_num) (by linarith)

theorem analyzeActionVerbs_bounds (l : List Char) :
    0 ≤ analyzeActionVerbs l ∧ analyzeActionVerbs l ≤ 100 := by
  simp only [analyzeActionVerbs]
  generalize (ACTION_VERBS.map (fun v => countOccur v.data l)).sum = cnt
  generalize splitWs l = ws
  split_ifs with h
  · exact ⟨le_min (by norm_num) (pyInt_nonneg _ (by positivity)),
      min_le_left _ _⟩
  · norm_num

theorem analyzeQuantification_bounds (cvText : String) :
    0 ≤ analyzeQuantification cvText ∧ analyzeQuantification cvText ≤ 100 := by
  simp only [analyzeQuantification]
  split_ifs <;> norm_num

theorem calculateOverallScore_bounds (a v q : ℤ)
    (ha0 : 0 ≤ a) (ha1 : a ≤ 100) (hv0 : 0 ≤ v) (hv1 : v ≤ 100)
    (hq0 : 0 ≤ q) (hq1 : q ≤ 100) :
    0 ≤ calculateOverallScore a v q ∧ calculateOverallScore a v q ≤ 100 := by
  have ca0 : (0 : ℚ) ≤ (a : ℚ) := by exact_mod_cast ha0
  have ca1 : ((a : ℚ)) ≤ 100 := by exact_mod_cast ha1
  have cv0 : (0 : ℚ) ≤ (v : ℚ) := by exact_mod_cast hv0
  have cv1 : ((v : ℚ)) ≤ 100 := by exact_mod_cast hv1
  have cq0 : (0 : ℚ) ≤ (q : ℚ) := by exact_mod_cast hq0
  have cq1 : ((q : ℚ)) ≤ 100 := by exact_mod_cast hq1
  unfold calculateOverallScore
  exact ⟨pyInt_nonneg _ (by linarith), pyInt_le_int _ 100 (by linarith)⟩

/-- C1: for every document and job description, `analyze_cv` returns a
result whose `overall_score` and `ats_compatibility_score` both lie in
the inclusive range 0 to 100. -/
theorem claim1_scores_within_range (cvText jobDescription : String) :
    0 ≤ (analyzeCv cvText jobDescription).overall_score ∧
    (analyzeCv cvText jobDescription).overall_score ≤ 100 ∧
    0 ≤ (analyzeCv cvText jobDescription).ats_compatibility_score ∧
    (analyzeCv cvText jobDescription).ats_compatibility_score ≤ 100 := by
  have hsec : analyzeSections (lowS cvText.data) ≤ 100 := Nat.min_le_left _ _
  have hkw := analyzeKeywords_fst_bounds cvText jobDescription
  have hats := calculateAtsScore_bounds (analyzeSections (lowS cvText.data))
    (checkFormatting cvText).length (analyzeKeywords cvText jobDescription).1
    hsec hkw.1 hkw.2
  have hverb := analyzeActionVerbs_bounds (lowS cvText.data)
  have hquant := analyzeQuantification_bounds cvText
  have hov := calculateOverallScore_bounds _ _ _ hats.1 hats.2 hverb.1
    hverb.2 hquant.1 hquant.2
  exact ⟨hov.1, hov.2, hats.1, hats.2⟩

/-- C8 (counterexample): "unemployment history" contains the phrase
"employment history" (case-insensitively, as a substring), but the
section regex requires a word boundary before "employment", so `rewrite`
leaves the document unchanged: the output lacks "WORK EXPERIENCE" and
still contains the phrase. -/
theorem claim8_counterexample :
    subOcc (lowS "employment history".data)
      (lowS "unemployment history".data) = true ∧
    optimizeCvText "unemployment history" "" "" = "unemployment history" ∧
    subOcc "WORK EXPERIENCE".data
      (optimizeCvText "unemployment history" "" "").data = false ∧
    subOcc (lowS "employment history".data)
      (lowS (optimizeCvText "unemployment history" "" "").data) = true := by
  decide

/-! Character-class facts used in the word-boundary reasoning for the
section-header rewriting (claim C8). -/

/-- The 26 upper-case basic latin letters. -/
def UPPER_LETTERS : List Char := ['A', 'B', 'C', 'D', 'E', 'F', 'G', 'H', 'I', 'J', 'K', 'L', 'M', 'N', 'O', 'P', 'Q', 'R', 'S', 'T', 'U', 'V', 'W', 'X', 'Y', 'Z']

theorem lowCh_eq_self_of_ne (c : Char) (h : c ∉ UPPER_LETTERS) :
    lowCh c = c := by
  have n1 : c ≠ 'A' := fun he => h (by rw [he]; decide)
  have n2 : c ≠ 'B' := fun he => h (by rw [he]; decide)
  have n3 : c ≠ 'C' := fun he => h (by rw [he]; decide)
  have n4 : c ≠ 'D' := fun he => h (by rw [he]; decide)
  have n5 : c ≠ 'E' := fun he => h (by rw [he]; decide)
  have n6 : c ≠ 'F' := fun he => h (by rw [he]; decide)
  have n7 : c ≠ 'G' := fun he => h (by rw [he]; decide)
  have n8 : c ≠ 'H' := fun he => h (by rw [he]; decide)
  have n9 : c ≠ 'I' := fun he => h (by rw [he]; decide)
  have n10 : c ≠ 'J' := fun he => h (by rw [he]; decide)
  have n11 : c ≠ 'K' := fun he => h (by rw [he]; decide)
  have n12 : c ≠ 'L' := fun he => h (by rw [he]; decide)
  have n13 : c ≠ 'M' := fun he => h (by rw [he]; decide)
  have n14 : c ≠ 'N' := fun he => h (by rw [he]; decide)
  have n15 : c ≠ 'O' := fun he => h (by rw [he]; decide)
  have n16 : c ≠ 'P' := fun he => h (by rw [he]; decide)
  have n17 : c ≠ 'Q' := fun he => h (by rw [he]; decide)
  have n18 : c ≠ 'R' := fun he => h (by rw [he]; decide)
  have n19 : c ≠ 'S' := fun he => h (by rw [he]; decide)
  have n20 : c ≠ 'T' := fun he => h (by rw [he]; decide)
  have n21 : c ≠ 'U' := fun he => h (by rw [he]; decide)
  have n22 : c ≠ 'V' := fun he => h (by rw [he]; decide)
  have n23 : c ≠ 'W' := fun he => h (by rw [he]; decide)
  have n24 : c ≠ 'X' := fun he => h (by rw [he]; decide)
  have n25 : c ≠ 'Y' := fun he => h (by rw [he]; decide)
  have n26 : c ≠ 'Z' := fun he => h (by rw [he]; decide)
  unfold lowCh
  rw [if_neg n1, if_neg n2, if_neg n3, if_neg n4, if_neg n5, if_neg n6, if_neg n7, if_neg n8, if_neg n9, if_neg n10, if_neg n11, if_neg n12, if_neg n13, if_neg n14, if_neg n15, if_neg n16, if_neg n17, if_neg n18, if_neg n19, if_neg n20, if_neg n21, if_neg n22, if_neg n23, if_neg n24, if_neg n25, if_neg n26]

theorem isWordCh_lowCh (c : Char) : isWordCh (lowCh c) = isWordCh c := by
  by_cases h : c ∈ UPPER_LETTERS
  · simp only [UPPER_LETTERS, List.mem_cons, List.not_mem_nil, or_false] at h
    rcases h with rfl|rfl|rfl|rfl|rfl|rfl|rfl|rfl|rfl|rfl|rfl|rfl|rfl|rfl|rfl|rfl|rfl|rfl|rfl|rfl|rfl|rfl|rfl|rfl|rfl|rfl <;> decide
  · rw [lowCh_eq_self_of_ne c h]

theorem lowCh_eq_space (c : Char) (h : lowCh c = ' ') : c = ' ' := by
  by_cases hm : c ∈ UPPER_LETTERS
  · simp only [UPPER_LETTERS, List.mem_cons, List.not_mem_nil, or_false] at hm
    rcases hm with rfl|rfl|rfl|rfl|rfl|rfl|rfl|rfl|rfl|rfl|rfl|rfl|rfl|rfl|rfl|rfl|rfl|rfl|rfl|rfl|rfl|rfl|rfl|rfl|rfl|rfl <;> exact absurd h (by decide)
  · rwa [lowCh_eq_self_of_ne c hm] at h

theorem lowCh_lower_word (c d : Char) (hd : d.isLower = true)
    (h : lowCh c = d) : isWordCh c = true := by
  by_cases hm : c ∈ UPPER_LETTERS
  · simp only [UPPER_LETTERS, List.mem_cons, List.not_mem_nil, or_false] at hm
    rcases hm with rfl|rfl|rfl|rfl|rfl|rfl|rfl|rfl|rfl|rfl|rfl|rfl|rfl|rfl|rfl|rfl|rfl|rfl|rfl|rfl|rfl|rfl|rfl|rfl|rfl|rfl <;> decide
  · rw [lowCh_eq_self_of_ne c hm] at h
    subst h
    simp [isWordCh, Char.isAlphanum, Char.isAlpha, hd]

theorem word_not_space (c : Char) (h : isWordCh c = true) :
    isSpaceCh c = false := by
  by_contra hs
  have hs' : isSpaceCh c = true := by
    revert hs
    cases isSpaceCh c <;> simp
  simp only [isSpaceCh, Bool.or_eq_true, decide_eq_true_eq] at hs'
  rcases hs' with ((((rfl | rfl) | rfl) | rfl) | rfl) | rfl <;>
    simp_all [isWordCh]

/-! Infrastructure for the word-boundary analysis of the section-header
rewrite (claim C8): a whole-phrase occurrence of "employment history"
survives the weak-phrase pass, is rewritten to "WORK EXPERIENCE" by the
first section mapping, and that header survives the remaining passes. -/

/-- The lower-cased phrase of the first section mapping. -/
def ehL : List Char := "employment history".data

/-- A mismatch strictly inside the overlap of `w` and `t`: guarantees
that `w` is not a prefix of `t ++ z` for any continuation `z`. -/
def mismatchWithin : List Char → List Char → Bool
  | _, [] => false
  | [], _ => false
  | a :: w, b :: t => a ≠ b || mismatchWithin w t

/-- No suffix of the phrase starts a `w`-match (`w` a lower-cased weak
phrase): rules out matches beginning inside an occurrence. -/
def insideSafe (w : List Char) : Bool :=
  (List.range ehL.length).all (fun k => mismatchWithin w (ehL.drop k))

/-- Every alignment of `w` across the left edge of an occurrence is
refuted: the character of `w` aligned with the occurrence's left
neighbour is a word character, or the rest of `w` mismatches the phrase. -/
def crossSafe (w : List Char) : Bool :=
  (List.range w.length).all (fun j =>
    isWordCh (w.getD j ' ') || mismatchWithin (w.drop (j + 1)) ehL)

/-- The first character is a word character. -/
def headWordCh : List Char → Bool
  | [] => false
  | c :: _ => isWordCh c

/-- Left context of a whole-phrase occurrence: empty or ending in a
non-word character. -/
def LeftOk (u : List Char) : Prop :=
  ∀ c, u.getLast? = some c → isWordCh c = false

/-- A whole-phrase, single-space, case-insensitive occurrence of
"employment history" with word boundaries on both sides. -/
def WholeEHOcc (s : List Char) : Prop :=
  ∃ u p v, s = u ++ (p ++ v) ∧ lowS p = ehL ∧ LeftOk u ∧ rightBd v = true

theorem noPrefixOfAppend (w t z : List Char)
    (h : mismatchWithin w t = true) : w.isPrefixOf (t ++ z) = false := by
  induction w generalizing t with
  | nil => cases t <;> simp [mismatchWithin] at h
  | cons a w' ih =>
    cases t with
    | nil => simp [mismatchWithin] at h
    | cons b t' =>
      simp only [mismatchWithin, Bool.or_eq_true, decide_eq_true_eq] at h
      rcases h with h | h
      · simp [List.isPrefixOf, h]
      · simp [List.isPrefixOf, ih t' h]

theorem prefixOf_self_append (w r : List Char) :
    w.isPrefixOf (w ++ r) = true := by
  induction w with
  | nil => simp [List.isPrefixOf]
  | cons a w' ih => simp [List.isPrefixOf, ih]

theorem prefixOf_getElem (w t : List Char) (h : w.isPrefixOf t = true)
    (j : Nat) (hj : j < w.length) : t[j]? = w[j]? := by
  induction w generalizing t j with
  | nil => simp at hj
  | cons a w' ih =>
    cases t with
    | nil => simp [List.isPrefixOf] at h
    | cons b t' =>
      simp only [List.isPrefixOf, Bool.and_eq_true, beq_iff_eq] at h
      cases j with
      | zero => simp [h.1]
      | succ j' => simpa using ih t' h.2 j' (by simpa using hj)

theorem prefixOf_drop (w t z : List Char) (h : w.isPrefixOf (t ++ z) = true)
    (hlen : t.length ≤ w.length) :
    (w.drop t.length).isPrefixOf z = true := by
  induction t generalizing w with
  | nil => simpa using h
  | cons b t' ih =>
    cases w with
    | nil => simp at hlen
    | cons a w' =>
      simp only [List.cons_append, List.isPrefixOf, Bool.and_eq_true] at h
      simpa using ih w' h.2 (by simpa using hlen)

theorem replaceAllCIAux_skip (pat rep : List Char) :
    ∀ k s, replaceAllCIAux pat rep k s = replaceAllCIAux pat rep 0 (List.drop k s) := by
  intro k
  induction k with
  | zero => intro s; simp
  | succ k' ih =>
    intro s
    cases s with
    | nil => simp [replaceAllCIAux]
    | cons c cs => simpa [replaceAllCIAux] using ih cs

theorem replaceAllCIAux_chunk (pat rep : List Char) :
    ∀ p v, (∀ k, k < p.length →
      mismatchWithin (lowS pat) (lowS (p.drop k)) = true) →
    replaceAllCIAux pat rep 0 (p ++ v) = p ++ replaceAllCIAux pat rep 0 v := by
  intro p
  induction p with
  | nil => intro v _; simp
  | cons c p' ih =>
    intro v hp
    have h0 : mismatchWithin (lowS pat) (lowS (c :: p')) = true := by
      simpa using hp 0 (by simp)
    have hcond : (lowS pat).isPrefixOf (lowS (c :: (p' ++ v))) = false := by
      have harr : lowS (c :: (p' ++ v)) = lowS (c :: p') ++ lowS v := by
        simp [lowS]
      rw [harr]
      exact noPrefixOfAppend _ _ _ h0
    simp only [List.cons_append, replaceAllCIAux, List.append_eq, hcond,
      Bool.false_and]
    rw [if_neg Bool.false_ne_true,
      ih v (fun k hk => hp (k + 1) (by simpa using hk))]

theorem getLast?_drop_of_lt {α : Type} (l : List α) (k : Nat)
    (h : k < l.length) : (l.drop k).getLast? = l.getLast? := by
  rw [List.getLast?_eq_getElem?, List.getLast?_eq_getElem?,
    List.getElem?_drop, List.length_drop]
  congr 1
  omega

theorem getLast?_cons_congr {α : Type} (c : α) (l₁ l₂ : List α)
    (h : l₁.getLast? = l₂.getLast?) :
    (c :: l₁).getLast? = (c :: l₂).getLast? := by
  cases l₁ with
  | nil =>
    have : l₂ = [] := List.getLast?_eq_none_iff.mp h.symm
    subst this
    rfl
  | cons a t =>
    cases l₂ with
    | nil => simp [List.getLast?_eq_none_iff] at h
    | cons b t' =>
      rw [List.getLast?_cons_cons, List.getLast?_cons_cons]
      exact h

theorem insideSafe_spec (w : List Char) (h : insideSafe w = true) (k : Nat)
    (hk : k < ehL.length) : mismatchWithin w (ehL.drop k) = true := by
  simp only [insideSafe, List.all_eq_true, List.mem_range] at h
  exact h k hk

theorem crossSafe_spec (w : List Char) (h : crossSafe w = true) (j : Nat)
    (hj : j < w.length) :
    isWordCh (w.getD j ' ') = true ∨
      mismatchWithin (w.drop (j + 1)) ehL = true := by
  simp only [crossSafe, List.all_eq_true, List.mem_range] at h
  have := h j hj
  simpa using this

theorem noMatch_at_nonword (pat : List Char)
    (hhead : headWordCh (lowS pat) = true) (c : Char)
    (hc : isWordCh c = false) (vt : List Char) :
    (lowS pat).isPrefixOf (lowS (c :: vt)) = false := by
  cases hlp : lowS pat with
  | nil => rw [hlp] at hhead; simp [headWordCh] at hhead
  | cons d w' =>
    rw [hlp] at hhead
    have hd : isWordCh d = true := by simpa [headWordCh] using hhead
    have hne : (d == lowCh c) = false := by
      by_contra hb
      have hdc : d = lowCh c := by
        cases hbe : d == lowCh c
        · exact absurd hbe hb
        · exact beq_iff_eq.mp hbe
      rw [hdc, isWordCh_lowCh] at hd
      rw [hd] at hc
      cases hc
    show (d :: w').isPrefixOf (lowCh c :: lowS vt) = false
    simp [List.isPrefixOf, hne]

theorem replaceAllCIAux_rightBd (pat rep : List Char)
    (hhead : headWordCh (lowS pat) = true) (v : List Char)
    (hv : rightBd v = true) :
    rightBd (replaceAllCIAux pat rep 0 v) = true := by
  cases v with
  | nil => simp [replaceAllCIAux, rightBd]
  | cons c vt =>
    have hc : isWordCh c = false := by
      simpa [rightBd] using hv
    have hcond := noMatch_at_nonword pat hhead c hc vt
    simp only [replaceAllCIAux, hcond, Bool.false_and]
    rw [if_neg Bool.false_ne_true]
    simpa [rightBd] using hc

/-- The case-insensitive literal substitution of a weak phrase preserves
a whole-phrase occurrence of "employment history": no match can start
inside the phrase (`insideSafe`), cross its left boundary (`crossSafe`,
using that the left neighbour is not a word character), or touch its
right boundary (the pattern starts with a word character). -/
theorem replaceAllCIAux_preserves (pat rep : List Char) (hpat : pat ≠ [])
    (hin : insideSafe (lowS pat) = true)
    (hcross : crossSafe (lowS pat) = true)
    (hhead : headWordCh (lowS pat) = true) :
    ∀ n u p v, u.length ≤ n → lowS p = ehL → LeftOk u → rightBd v = true →
    ∃ u' v', replaceAllCIAux pat rep 0 (u ++ (p ++ v)) = u' ++ (p ++ v') ∧
      u'.getLast? = u.getLast? ∧ rightBd v' = true := by
  have hplen' : ∀ p : List Char, lowS p = ehL → p.length = ehL.length := by
    intro p hp
    rw [← hp]
    simp [lowS]
  have base : ∀ p v, lowS p = ehL → rightBd v = true →
      ∃ u' v', replaceAllCIAux pat rep 0 ([] ++ (p ++ v)) = u' ++ (p ++ v') ∧
        u'.getLast? = ([] : List Char).getLast? ∧ rightBd v' = true := by
    intro p v hp hR
    refine ⟨[], replaceAllCIAux pat rep 0 v, ?_, rfl,
      replaceAllCIAux_rightBd pat rep hhead v hR⟩
    simp only [List.nil_append]
    refine replaceAllCIAux_chunk pat rep p v ?_
    intro k hk
    have hmap : lowS (List.drop k p) = List.drop k ehL := by
      show (List.drop k p).map lowCh = List.drop k ehL
      rw [List.map_drop, show p.map lowCh = ehL from hp]
    rw [hmap]
    have hpl := hplen' p hp
    exact insideSafe_spec _ hin k (by omega)
  intro n
  induction n with
  | zero =>
    intro u p v hu hp hL hR
    have hu0 : u = [] := List.length_eq_zero.mp (Nat.le_zero.mp hu)
    subst hu0
    exact base p v hp hR
  | succ n ih =>
    intro u p v hu hp hL hR
    cases u with
    | nil => exact base p v hp hR
    | cons c u₀ =>
      by_cases hcond :
          ((lowS pat).isPrefixOf (lowS (c :: (u₀ ++ (p ++ v)))) &&
            !pat.isEmpty) = true
      · have hcond' := hcond
        rw [Bool.and_eq_true] at hcond'
        have hpre : (lowS pat).isPrefixOf
            (lowS (c :: u₀) ++ (ehL ++ lowS v)) = true := by
          have harr : lowS (c :: (u₀ ++ (p ++ v))) =
              lowS (c :: u₀) ++ (lowS p ++ lowS v) := by
            simp [lowS]
          rw [harr, hp] at hcond'
          exact hcond'.1
        have hpatpos : 0 < pat.length := List.length_pos.mpr hpat
        rcases le_or_lt pat.length u₀.length with hle | hgt
        · -- the match lies strictly inside `u`
          have hskip : replaceAllCIAux pat rep 0 ((c :: u₀) ++ (p ++ v)) =
              rep ++ replaceAllCIAux pat rep 0
                (List.drop (pat.length - 1) u₀ ++ (p ++ v)) := by
            show replaceAllCIAux pat rep 0 (c :: (u₀ ++ (p ++ v))) = _
            simp only [replaceAllCIAux]
            rw [if_pos hcond, replaceAllCIAux_skip,
              List.drop_append_of_le_length (by omega)]
          have hlt : pat.length - 1 < u₀.length := by omega
          have hlast' : (List.drop (pat.length - 1) u₀).getLast? =
              u₀.getLast? := getLast?_drop_of_lt u₀ _ hlt
          have hu₀ne : u₀ ≠ [] := by
            intro he
            rw [he] at hlt
            simp at hlt
          have hlastcons : u₀.getLast? = (c :: u₀).getLast? := by
            cases u₀ with
            | nil => exact absurd rfl hu₀ne
            | cons a t => rw [List.getLast?_cons_cons]
          have hL' : LeftOk (List.drop (pat.length - 1) u₀) := by
            intro ch hch
            refine hL ch ?_
            rw [← hlastcons, ← hlast']
            exact hch
          have hlen' : (List.drop (pat.length - 1) u₀).length ≤ n := by
            have hulen : u₀.length ≤ n := by
              simp at hu
              omega
            simp [List.length_drop]
            omega
          obtain ⟨u'', v', heq, hlast'', hRv⟩ :=
            ih (List.drop (pat.length - 1) u₀) p v hlen' hp hL' hR
          refine ⟨rep ++ u'', v', ?_, ?_, hRv⟩
          · rw [hskip, heq, List.append_assoc]
          · have hchain : u''.getLast? = (c :: u₀).getLast? :=
              hlast''.trans (hlast'.trans hlastcons)
            obtain ⟨y, hy⟩ : ∃ y, (c :: u₀).getLast? = some y := by
              cases hgl : (c :: u₀).getLast? with
              | none => simp [List.getLast?_eq_none_iff] at hgl
              | some y => exact ⟨y, rfl⟩
            rw [List.getLast?_append, hchain, hy]
            rfl
        · -- the match would cross the left boundary of the phrase: refute
          exfalso
          have hjlt : u₀.length < (lowS pat).length := by
            simpa [lowS] using hgt
          have hptw := prefixOf_getElem _ _ hpre u₀.length hjlt
          have hjlt2 : u₀.length < (lowS (c :: u₀)).length := by
            simp [lowS]
          rw [List.getElem?_append_left hjlt2] at hptw
          have hlastu : (lowS (c :: u₀))[u₀.length]? =
              ((c :: u₀).getLast?).map lowCh := by
            show (List.map lowCh (c :: u₀))[u₀.length]? = _
            rw [List.getElem?_map, List.getLast?_eq_getElem?]
            have hidx : (c :: u₀).length - 1 = u₀.length := by simp
            rw [hidx]
          obtain ⟨cL, hcL⟩ : ∃ cL, (c :: u₀).getLast? = some cL := by
            cases hgl : (c :: u₀).getLast? with
            | none => simp [List.getLast?_eq_none_iff] at hgl
            | some y => exact ⟨y, rfl⟩
          have hLcL : isWordCh cL = false := hL cL hcL
          have hpatj : (lowS pat)[u₀.length]? = some (lowCh cL) := by
            rw [← hptw, hlastu, hcL]
            rfl
          rcases crossSafe_spec _ hcross u₀.length hjlt with hw | hm
          · rw [List.getD_eq_getElem?_getD, hpatj] at hw
            simp only [Option.getD_some] at hw
            rw [isWordCh_lowCh] at hw
            simp [hLcL] at hw
          · have hlenu : (lowS (c :: u₀)).length ≤ (lowS pat).length := by
              simp only [lowS, List.length_map, List.length_cons]
              simpa [lowS] using hgt
            have hdrop := prefixOf_drop _ _ _ hpre hlenu
            have hjeq : (lowS (c :: u₀)).length = u₀.length + 1 := by
              simp [lowS]
            rw [hjeq] at hdrop
            rw [noPrefixOfAppend _ _ _ hm] at hdrop
            cases hdrop
      · -- no match at the head: emit one character and recurse
        have hstep : replaceAllCIAux pat rep 0 ((c :: u₀) ++ (p ++ v)) =
            c :: replaceAllCIAux pat rep 0 (u₀ ++ (p ++ v)) := by
          show replaceAllCIAux pat rep 0 (c :: (u₀ ++ (p ++ v))) = _
          simp only [replaceAllCIAux]
          rw [if_neg hcond]
        have hL₀ : LeftOk u₀ := by
          intro ch hch
          refine hL ch ?_
          cases u₀ with
          | nil => simp at hch
          | cons a t =>
            rw [List.getLast?_cons_cons]
            exact hch
        have hlen₀ : u₀.length ≤ n := by
          simp at hu
          omega
        obtain ⟨u'', v', heq, hlast'', hRv⟩ := ih u₀ p v hlen₀ hp hL₀ hR
        refine ⟨c :: u'', v', ?_, getLast?_cons_congr c u'' u₀ hlast'', hRv⟩
        rw [hstep, heq]
        rfl

theorem phraseStage_preserves (weak strongOpts : List Char)
    (hpat : weak ≠ []) (hin : insideSafe (lowS weak) = true)
    (hcross : crossSafe (lowS weak) = true)
    (hhead : headWordCh (lowS weak) = true) (s : List Char)
    (h : WholeEHOcc s) : WholeEHOcc (phraseStage weak strongOpts s) := by
  have key : ∀ rep, WholeEHOcc (replaceAllCIAux weak rep 0 s) := by
    intro rep
    obtain ⟨u, p, v, rfl, hp, hL, hR⟩ := h
    obtain ⟨u', v', heq, hlast, hR'⟩ :=
      replaceAllCIAux_preserves weak rep hpat hin hcross hhead
        u.length u p v (Nat.le_refl _) hp hL hR
    refine ⟨u', p, v', heq, hp, ?_, hR'⟩
    intro ch hch
    exact hL ch (hlast ▸ hch)
  simp only [phraseStage]
  split_ifs with hs hcap
  · exact key _
  · exact key _
  · exact h

def weakOk (w : List Char) : Bool :=
  !w.isEmpty && insideSafe (lowS w) && crossSafe (lowS w) &&
    headWordCh (lowS w)

theorem weakOk_spec (w : List Char) (h : weakOk w = true) :
    w ≠ [] ∧ insideSafe (lowS w) = true ∧ crossSafe (lowS w) = true ∧
      headWordCh (lowS w) = true := by
  refine ⟨?_, ?_⟩
  · intro he
    subst he
    exact absurd h (by decide)
  · simp only [weakOk, Bool.and_eq_true] at h
    exact ⟨h.1.1.2, h.1.2, h.2⟩

set_option maxHeartbeats 8000000 in
theorem weakOk1 : weakOk "responsible for".data = true := by decide

set_option maxHeartbeats 8000000 in
theorem weakOk2 : weakOk "worked on".data = true := by decide

set_option maxHeartbeats 8000000 in
theorem weakOk3 : weakOk "helped with".data = true := by decide

set_option maxHeartbeats 8000000 in
theorem weakOk4 : weakOk "duties included".data = true := by decide

set_option maxHeartbeats 8000000 in
theorem weakOk5 : weakOk "involved in".data = true := by decide

set_option maxHeartbeats 8000000 in
theorem weakOk6 : weakOk "was part of".data = true := by decide

set_option maxHeartbeats 8000000 in
theorem weakOk7 : weakOk "did".data = true := by decide

set_option maxHeartbeats 8000000 in
theorem weakOk8 : weakOk "made".data = true := by decide

set_option maxHeartbeats 8000000 in
theorem weakOk9 : weakOk "got".data = true := by decide

theorem phraseStage_preserves_ok (weak strongOpts : List Char)
    (hok : weakOk weak = true) (s : List Char) (h : WholeEHOcc s) :
    WholeEHOcc (phraseStage weak strongOpts s) := by
  obtain ⟨p1, p2, p3, p4⟩ := weakOk_spec weak hok
  exact phraseStage_preserves weak strongOpts p1 p2 p3 p4 s h

theorem foldStages_preserves (l : List (String × String))
    (hl : ∀ p ∈ l, weakOk p.1.data = true) (s : List Char)
    (h : WholeEHOcc s) :
    WholeEHOcc (l.foldl (fun acc p => phraseStage p.1.data p.2.data acc) s) := by
  induction l generalizing s with
  | nil => exact h
  | cons p l ih =>
    exact ih (fun q hq => hl q (List.mem_cons_of_mem _ hq)) _
      (phraseStage_preserves_ok _ _ (hl p (List.mem_cons_self _ _)) s h)

theorem improveWeakPhrasesL_preserves (s : List Char) (h : WholeEHOcc s) :
    WholeEHOcc (improveWeakPhrasesL s) := by
  have hall : ∀ p ∈ PHRASE_IMPROVEMENTS, weakOk p.1.data = true := by
    intro p hp
    simp only [PHRASE_IMPROVEMENTS, List.mem_cons,
      List.not_mem_nil, or_false] at hp
    rcases hp with rfl | rfl | rfl | rfl | rfl | rfl | rfl | rfl | rfl
    · exact weakOk1
    · exact weakOk2
    · exact weakOk3
    · exact weakOk4
    · exact weakOk5
    · exact weakOk6
    · exact weakOk7
    · exact weakOk8
    · exact weakOk9
  exact foldStages_preserves PHRASE_IMPROVEMENTS hall s h

/-! Infrastructure for the amended claim C8: the section-header rewriting
emits the canonical header "WORK EXPERIENCE" on a whole-phrase occurrence
of "employment history", and the later rewrite passes keep it intact. -/

/-- The canonical header emitted by the first two section mappings. -/
def hdrWE : List Char := "WORK EXPERIENCE".data

/-- The lower-cased canonical header. -/
def weL : List Char := "work experience".data

theorem lowS_append (a b : List Char) :
    lowS (a ++ b) = lowS a ++ lowS b := by
  simp [lowS]

theorem subSecAux_skip (w1 w2 rep : List Char) :
    ∀ k fl s, subSecAux w1 w2 rep k fl s =
      subSecAux w1 w2 rep 0 fl (List.drop k s) := by
  intro k
  induction k with
  | zero => intro fl s; simp
  | succ k' ih =>
    intro fl s
    cases s with
    | nil => simp [subSecAux]
    | cons c cs => simpa [subSecAux] using ih fl cs

theorem subSecAux_step_true (w1 w2 rep : List Char) (c : Char)
    (cs : List Char) :
    subSecAux w1 w2 rep 0 true (c :: cs) =
      c :: subSecAux w1 w2 rep 0 (isWordCh c) cs := by
  simp [subSecAux]

theorem subSecAux_step_nomatch (w1 w2 rep : List Char) (c : Char)
    (cs : List Char) (hm : matchSec w1 w2 (c :: cs) = none) :
    subSecAux w1 w2 rep 0 false (c :: cs) =
      c :: subSecAux w1 w2 rep 0 (isWordCh c) cs := by
  simp [subSecAux, hm]

theorem matchSec_none_of_mismatch (w1 w2 r v : List Char)
    (h : mismatchWithin (lowS w1) (lowS r) = true) :
    matchSec w1 w2 (r ++ v) = none := by
  have hpre : (lowS w1).isPrefixOf (lowS (r ++ v)) = false := by
    rw [lowS_append]
    exact noPrefixOfAppend _ _ _ h
  simp only [matchSec, hpre]
  rw [if_neg Bool.false_ne_true]

/-- A run of word characters is copied verbatim: the flag stays `true`
throughout, so no match is ever attempted inside the run. -/
theorem subSecAux_words (w1 w2 rep : List Char) :
    ∀ cs, cs.all isWordCh = true → ∀ v,
      subSecAux w1 w2 rep 0 true (cs ++ v) =
        cs ++ subSecAux w1 w2 rep 0 true v := by
  intro cs
  induction cs with
  | nil => intro _ v; simp
  | cons c cs' ih =>
    intro hall v
    simp only [List.all_cons, Bool.and_eq_true] at hall
    rw [List.cons_append, subSecAux_step_true, hall.1, ih hall.2 v,
      List.cons_append]

/-- Scanning across an occurrence of the canonical header copies it
verbatim: a match attempt can only arise at offset 0 or offset 5 (the
other positions are preceded by a word character), and both attempts are
refuted by a mismatch of `w1` against the header, whatever follows. -/
theorem subSecAux_through_hdr (w1 w2 rep : List Char)
    (h0 : mismatchWithin (lowS w1) weL = true)
    (h5 : mismatchWithin (lowS w1) "experience".data = true) :
    ∀ fl v, subSecAux w1 w2 rep 0 fl (hdrWE ++ v) =
      hdrWE ++ subSecAux w1 w2 rep 0 true v := by
  intro fl v
  have hlowHdr : lowS hdrWE = weL := by decide
  have hlowExp : lowS "EXPERIENCE".data = "experience".data := by decide
  have hm0 : matchSec w1 w2 (hdrWE ++ v) = none :=
    matchSec_none_of_mismatch w1 w2 hdrWE v (by rw [hlowHdr]; exact h0)
  have hm5 : matchSec w1 w2 ('E' :: ("XPERIENCE".data ++ v)) = none :=
    matchSec_none_of_mismatch w1 w2 "EXPERIENCE".data v
      (by rw [hlowExp]; exact h5)
  have tailEq :
      subSecAux w1 w2 rep 0 true
        ("ORK".data ++ (' ' :: ('E' :: ("XPERIENCE".data ++ v)))) =
      "ORK".data ++ (' ' :: ('E' ::
        ("XPERIENCE".data ++ subSecAux w1 w2 rep 0 true v))) := by
    rw [subSecAux_words w1 w2 rep "ORK".data (by decide)]
    congr 1
    rw [subSecAux_step_true]
    congr 1
    rw [show isWordCh ' ' = false from rfl,
      subSecAux_step_nomatch w1 w2 rep 'E' _ hm5]
    rw [show isWordCh 'E' = true from rfl,
      subSecAux_words w1 w2 rep "XPERIENCE".data (by decide)]
  have hdec : hdrWE ++ v =
      'W' :: ("ORK".data ++ (' ' :: ('E' :: ("XPERIENCE".data ++ v)))) := rfl
  cases fl with
  | true =>
    rw [hdec, subSecAux_step_true, show isWordCh 'W' = true from rfl, tailEq]
    rfl
  | false =>
    rw [hdec, subSecAux_step_nomatch w1 w2 rep 'W' _ (hdec ▸ hm0),
      show isWordCh 'W' = true from rfl, tailEq]
    rfl

theorem prefixOf_length_le (w t : List Char) (h : w.isPrefixOf t = true) :
    w.length ≤ t.length := by
  induction w generalizing t with
  | nil => simp
  | cons a w' ih =>
    cases t with
    | nil => simp [List.isPrefixOf] at h
    | cons b t' =>
      simp only [List.isPrefixOf, Bool.and_eq_true] at h
      simpa using ih t' h.2

theorem lowS_length (l : List Char) : (lowS l).length = l.length := by
  simp [lowS]

/-- Every position below `wsRun r` holds a whitespace character. -/
theorem wsRun_spaces (r : List Char) (i : Nat) (hi : i < wsRun r) :
    isSpaceCh (r.getD i ' ') = true := by
  have hlt : i < (r.takeWhile isSpaceCh).length := hi
  obtain ⟨z, hz⟩ := List.takeWhile_prefix (l := r) (p := isSpaceCh)
  have hir : i < r.length := by
    rw [← hz]
    calc i < (r.takeWhile isSpaceCh).length := hlt
    _ ≤ (r.takeWhile isSpaceCh ++ z).length := by simp
  have hg : r[i]? = some ((r.takeWhile isSpaceCh)[i]) := by
    conv_lhs => rw [← hz]
    rw [List.getElem?_append_left hlt, List.getElem?_eq_getElem hlt]
  have hgd : r.getD i ' ' = (r.takeWhile isSpaceCh)[i] := by
    rw [List.getD_eq_getElem?_getD, hg, Option.getD_some]
  rw [hgd]
  exact List.mem_takeWhile_imp (List.getElem_mem hlt)

theorem matchSec_some_spec (w1 w2 t : List Char) (m : Nat)
    (h : matchSec w1 w2 t = some m) :
    (lowS w1).isPrefixOf (lowS t) = true ∧
    0 < wsRun (List.drop w1.length t) ∧
    (lowS w2).isPrefixOf
      (lowS (List.drop (wsRun (List.drop w1.length t))
        (List.drop w1.length t))) = true ∧
    m = w1.length + wsRun (List.drop w1.length t) + w2.length := by
  simp only [matchSec] at h
  split_ifs at h with h1 h2
  all_goals simp only [Option.some.injEq, reduceCtorEq] at h
  simp only [Bool.and_eq_true, decide_eq_true_eq] at h2
  exact ⟨h1, h2.1.1, h2.1.2, h.symm⟩

/-- No section-header match that starts strictly inside the left context
`a` can extend into the protected region `r` (whose lower case form is
`Rl`): the alignments of `w1` and `w2` against `Rl` are all refuted, and
the whitespace part cannot cover the region's leading word character.
Hence a match starting at the head of `a ++ (r ++ v)` ends within `a`. -/
theorem matchSec_le_left (w1 w2 Rl : List Char)
    (hcw1 : ∀ j, 1 ≤ j → j < w1.length →
      mismatchWithin ((lowS w1).drop j) Rl = true)
    (hcw2 : ∀ j, j < w2.length →
      mismatchWithin ((lowS w2).drop j) Rl = true)
    (hR0 : isWordCh (Rl.headD ' ') = true)
    (a r v : List Char) (hr : lowS r = Rl) (hane : a ≠ [])
    (m : Nat) (hm : matchSec w1 w2 (a ++ (r ++ v)) = some m) :
    m ≤ a.length := by
  by_contra hgt
  push_neg at hgt
  obtain ⟨hpre1, hk, hpre2, hmeq⟩ := matchSec_some_spec _ _ _ _ hm
  obtain ⟨c, r', rfl⟩ : ∃ c r', r = c :: r' := by
    cases r with
    | nil =>
      rw [show lowS [] = [] from rfl] at hr
      rw [← hr] at hR0
      exact absurd hR0 (by decide)
    | cons c r' => exact ⟨c, r', rfl⟩
  have hcw : isWordCh c = true := by
    have : Rl.headD ' ' = lowCh c := by
      rw [← hr]; rfl
    rw [this, isWordCh_lowCh] at hR0
    exact hR0
  have hL1 : 1 ≤ a.length := by
    cases a with
    | nil => exact absurd rfl hane
    | cons x xs => simp
  rcases Nat.lt_or_ge a.length w1.length with hcase1 | hge1
  · have hsplit : lowS (a ++ (c :: r' ++ v)) = lowS a ++ (Rl ++ lowS v) := by
      rw [lowS_append, lowS_append, hr]
    rw [hsplit] at hpre1
    have hd := prefixOf_drop (lowS w1) (lowS a) (Rl ++ lowS v) hpre1
      (by rw [lowS_length, lowS_length]; omega)
    rw [lowS_length] at hd
    rw [noPrefixOfAppend _ _ _ (hcw1 a.length hL1 hcase1)] at hd
    exact absurd hd (by simp)
  rcases Nat.lt_or_ge a.length
      (w1.length + wsRun (List.drop w1.length (a ++ (c :: r' ++ v))))
      with hcase2 | hge2
  · have hi : a.length - w1.length <
        wsRun (List.drop w1.length (a ++ (c :: r' ++ v))) := by omega
    have hsp := wsRun_spaces _ _ hi
    have hgd : (List.drop w1.length (a ++ (c :: r' ++ v))).getD
        (a.length - w1.length) ' ' = c := by
      rw [List.getD_eq_getElem?_getD, List.getElem?_drop]
      have he : w1.length + (a.length - w1.length) = a.length := by omega
      rw [he, List.getElem?_append_right (Nat.le_refl _), Nat.sub_self]
      simp
    rw [hgd] at hsp
    rw [word_not_space c hcw] at hsp
    exact absurd hsp (by simp)
  · set t := a ++ (c :: r' ++ v) with ht
    set W1 := w1.length
    set k := wsRun (List.drop W1 t)
    set j := a.length - W1 - k with hj
    have hjlt : j < w2.length := by omega
    have hdd : List.drop k (List.drop W1 t) = List.drop (W1 + k) t := by
      rw [List.drop_drop, Nat.add_comm]
    rw [hdd] at hpre2
    have hlen2 := prefixOf_length_le _ _ hpre2
    rw [lowS_length, lowS_length, List.length_drop] at hlen2
    have hjle : j ≤ (List.drop (W1 + k) t).length := by
      rw [List.length_drop]; omega
    have hts : List.drop (W1 + k) t =
        (List.drop (W1 + k) t).take j ++ List.drop a.length t := by
      conv_lhs => rw [← List.take_append_drop j (List.drop (W1 + k) t)]
      rw [List.drop_drop]
      have : W1 + k + j = a.length := by omega
      rw [this]
    rw [hts, lowS_append] at hpre2
    have hd := prefixOf_drop (lowS w2) _ _ hpre2
      (by rw [lowS_length, lowS_length, List.length_take]; omega)
    have hlt : (lowS ((List.drop (W1 + k) t).take j)).length = j := by
      rw [lowS_length, List.length_take]; omega
    rw [hlt] at hd
    have hdropa : List.drop a.length t = c :: r' ++ v := by
      rw [ht, List.drop_left]
    rw [hdropa, lowS_append, hr] at hd
    rw [noPrefixOfAppend _ _ _ (hcw2 j hjlt)] at hd
    exact absurd hd (by simp)

/-- Decidable side conditions for a section mapping `(w1, w2)` against
the canonical header: every alignment of `w1` and of `w2` against the
lower-cased header mismatches, and `w1` also mismatches the header's
second word (the only interior position where a match attempt arises). -/
def secSafeX (w1 w2 : List Char) : Bool :=
  mismatchWithin (lowS w1) "experience".data &&
  ((List.range w1.length).all fun j =>
    mismatchWithin (List.drop j (lowS w1)) weL) &&
  ((List.range w2.length).all fun j =>
    mismatchWithin (List.drop j (lowS w2)) weL)

theorem secSafeX_spec (w1 w2 : List Char) (h : secSafeX w1 w2 = true) :
    mismatchWithin (lowS w1) "experience".data = true ∧
    (∀ j, j < w1.length → mismatchWithin (List.drop j (lowS w1)) weL = true) ∧
    (∀ j, j < w2.length → mismatchWithin (List.drop j (lowS w2)) weL = true) := by
  simp only [secSafeX, Bool.and_eq_true, List.all_eq_true, List.mem_range] at h
  exact ⟨h.1.1, h.1.2, h.2⟩

/-- A section-header substitution pass with admissible pattern words
keeps an occurrence of the canonical header intact, and scans the part
after the occurrence with the flag set (the header ends in a letter). -/
theorem subSecAux_preserves_hdr (w1 w2 rep : List Char)
    (hne : w1 ≠ []) (hsafe : secSafeX w1 w2 = true) :
    ∀ n a, a.length ≤ n → ∀ fl v,
    ∃ b, subSecAux w1 w2 rep 0 fl (a ++ (hdrWE ++ v)) =
      b ++ (hdrWE ++ subSecAux w1 w2 rep 0 true v) := by
  obtain ⟨h5, hw1, hw2⟩ := secSafeX_spec w1 w2 hsafe
  have h0 : mismatchWithin (lowS w1) weL = true := by
    have hlp : 0 < w1.length := by
      cases w1 with
      | nil => exact absurd rfl hne
      | cons x xs => simp
    simpa using hw1 0 hlp
  intro n
  induction n with
  | zero =>
    intro a ha fl v
    have : a = [] := List.length_eq_zero.mp (Nat.le_zero.mp ha)
    subst this
    exact ⟨[], by simpa using subSecAux_through_hdr w1 w2 rep h0 h5 fl v⟩
  | succ n' ih =>
    intro a ha fl v
    cases a with
    | nil =>
      exact ⟨[], by simpa using subSecAux_through_hdr w1 w2 rep h0 h5 fl v⟩
    | cons c a' =>
      have hstep : ∀ (hcopy : subSecAux w1 w2 rep 0 fl (c :: a' ++ (hdrWE ++ v)) =
          c :: subSecAux w1 w2 rep 0 (isWordCh c) (a' ++ (hdrWE ++ v))),
          ∃ b, subSecAux w1 w2 rep 0 fl (c :: a' ++ (hdrWE ++ v)) =
            b ++ (hdrWE ++ subSecAux w1 w2 rep 0 true v) := by
        intro hcopy
        obtain ⟨b, hb⟩ := ih a' (by simp at ha; omega) (isWordCh c) v
        exact ⟨c :: b, by rw [hcopy, hb]; simp⟩
      cases fl with
      | true => exact hstep (subSecAux_step_true w1 w2 rep c _)
      | false =>
        cases hm : matchSec w1 w2 (c :: (a' ++ (hdrWE ++ v))) with
        | none => exact hstep (subSecAux_step_nomatch w1 w2 rep c _ hm)
        | some m =>
          have hmle : m ≤ (c :: a').length := by
            refine matchSec_le_left w1 w2 weL
              (fun j hj1 hj2 => hw1 j hj2) hw2 (by decide)
              (c :: a') hdrWE v (by decide) (by simp) m ?_
            simpa using hm
          have hout : subSecAux w1 w2 rep 0 false (c :: a' ++ (hdrWE ++ v)) =
              rep ++ subSecAux w1 w2 rep 0 true
                (List.drop (m - 1) (a' ++ (hdrWE ++ v))) := by
            show subSecAux w1 w2 rep 0 false (c :: (a' ++ (hdrWE ++ v))) = _
            rw [show subSecAux w1 w2 rep 0 false (c :: (a' ++ (hdrWE ++ v))) =
              rep ++ subSecAux w1 w2 rep (m - 1) true (a' ++ (hdrWE ++ v)) by
              simp [subSecAux, hm]]
            rw [subSecAux_skip]
          have hdropm : List.drop (m - 1) (a' ++ (hdrWE ++ v)) =
              List.drop (m - 1) a' ++ (hdrWE ++ v) := by
            refine List.drop_append_of_le_length ?_
            simp at hmle
            omega
          obtain ⟨b, hb⟩ := ih (List.drop (m - 1) a')
            (by
              rw [List.length_drop]
              simp at ha
              omega) true v
          refine ⟨rep ++ b, ?_⟩
          rw [hout, hdropm, hb, List.append_assoc]

/-- At a whole-phrase occurrence `p` of "employment history" (any case)
followed by a right boundary, the first section mapping's pattern
matches and consumes exactly the 18 characters of the phrase. -/
theorem matchSec_eh (p v : List Char) (hp : lowS p = ehL)
    (hR : rightBd v = true) :
    matchSec "employment".data "history".data (p ++ v) = some 18 := by
  have hplen : p.length = 18 := by
    have := congrArg List.length hp
    simpa [lowS, ehL] using this
  have hc1 : (lowS "employment".data).isPrefixOf (lowS (p ++ v)) = true := by
    rw [show lowS "employment".data = "employment".data from by decide,
      lowS_append, hp,
      show ehL ++ lowS v = "employment".data ++ (" history".data ++ lowS v)
        from rfl]
    exact prefixOf_self_append _ _
  have h10q : p[10]?.map lowCh = some ' ' := by
    rw [← List.getElem?_map]
    show (lowS p)[10]? = some ' '
    rw [hp]; decide
  have h11q : p[11]?.map lowCh = some 'h' := by
    rw [← List.getElem?_map]
    show (lowS p)[11]? = some 'h'
    rw [hp]; decide
  have h10lt : 10 < p.length := by omega
  have h11lt : 11 < p.length := by omega
  have h10c : p[10] = ' ' := by
    rw [List.getElem?_eq_getElem h10lt] at h10q
    simp only [Option.map_some', Option.some.injEq] at h10q
    exact lowCh_eq_space _ h10q
  have h11w : isWordCh (p[11]) = true := by
    rw [List.getElem?_eq_getElem h11lt] at h11q
    simp only [Option.map_some', Option.some.injEq] at h11q
    rw [← isWordCh_lowCh, h11q]
    decide
  have h11s : isSpaceCh (p[11]) = false := word_not_space _ h11w
  have hdrop10 : List.drop 10 p = p[10] :: (p[11] :: List.drop 12 p) := by
    rw [List.drop_eq_getElem_cons h10lt]
    congr 1
    exact List.drop_eq_getElem_cons h11lt
  have hr10 : List.drop 10 (p ++ v) = List.drop 10 p ++ v :=
    List.drop_append_of_le_length (by omega)
  have hws : wsRun (List.drop 10 p ++ v) = 1 := by
    rw [hdrop10, List.cons_append, List.cons_append]
    show (List.takeWhile isSpaceCh
      (p[10] :: (p[11] :: (List.drop 12 p ++ v)))).length = 1
    rw [List.takeWhile_cons_of_pos (by rw [h10c]; decide),
      List.takeWhile_cons_of_neg (by simp [h11s])]
    rfl
  have hdrop11 : List.drop 1 (List.drop 10 p ++ v) = List.drop 11 p ++ v := by
    rw [hdrop10]
    simp only [List.cons_append, List.drop_succ_cons, List.drop_zero]
    rw [List.drop_eq_getElem_cons h11lt]
    rfl
  have hc3 : (lowS "history".data).isPrefixOf
      (lowS (List.drop 1 (List.drop 10 p ++ v))) = true := by
    rw [hdrop11,
      show lowS "history".data = "history".data from by decide,
      lowS_append]
    have : lowS (List.drop 11 p) = "history".data := by
      show (List.drop 11 p).map lowCh = _
      rw [List.map_drop, show p.map lowCh = ehL from hp]
      decide
    rw [this]
    exact prefixOf_self_append _ _
  have hbd : rightBd (List.drop (1 + ("history".data).length)
      (List.drop 10 p ++ v)) = true := by
    have hlen8 : (List.drop 10 p).length = 8 := by
      rw [List.length_drop, hplen]
    rw [show (1 + ("history".data).length) = 8 from by decide,
      List.drop_append_of_le_length (by omega),
      List.drop_eq_nil_of_le (by omega), List.nil_append]
    exact hR
  have hw1len : ("employment".data).length = 10 := by decide
  simp only [matchSec, hw1len, hc1, if_true, hr10, hws, hc3, hbd]
  norm_num

/-- Scanning a text that carries a whole-phrase occurrence of
"employment history" with the first section mapping emits the canonical
header: either a replacement fires in the left context (the replacement
text is the header itself), or the scanner reaches the phrase with the
word flag clear (the left context ends in a non-word character) and the
phrase match fires. -/
theorem subSecAux_emits (p v : List Char) (hp : lowS p = ehL)
    (hR : rightBd v = true) :
    ∀ n a, a.length ≤ n → LeftOk a → ∀ fl, (a = [] → fl = false) →
    ∃ b1 b2, subSecAux "employment".data "history".data hdrWE 0 fl
      (a ++ (p ++ v)) = b1 ++ (hdrWE ++ b2) := by
  have hbase : ∀ fl, fl = false →
      ∃ b1 b2, subSecAux "employment".data "history".data hdrWE 0 fl
        (p ++ v) = b1 ++ (hdrWE ++ b2) := by
    intro fl hfl
    subst hfl
    have hplen : p.length = 18 := by
      have := congrArg List.length hp
      simpa [lowS, ehL] using this
    obtain ⟨c, p', rfl⟩ : ∃ c p', p = c :: p' := by
      cases p with
      | nil => simp at hplen
      | cons c p' => exact ⟨c, p', rfl⟩
    have hm := matchSec_eh (c :: p') v hp hR
    rw [List.cons_append] at hm
    refine ⟨[], subSecAux "employment".data "history".data hdrWE 17 true
      (p' ++ v), ?_⟩
    rw [List.cons_append]
    show subSecAux "employment".data "history".data hdrWE 0 false
      (c :: (p' ++ v)) = _
    simp [subSecAux, hm]
  intro n
  induction n with
  | zero =>
    intro a ha hL fl hfl
    have : a = [] := List.length_eq_zero.mp (Nat.le_zero.mp ha)
    subst this
    simpa using hbase fl (hfl rfl)
  | succ n' ih =>
    intro a ha hL fl hfl
    cases a with
    | nil => simpa using hbase fl (hfl rfl)
    | cons c a' =>
      have hL' : LeftOk a' := by
        intro d hd
        apply hL d
        cases a' with
        | nil => simp at hd
        | cons e a'' => rw [← hd, List.getLast?_cons_cons]
      have hfl' : a' = [] → isWordCh c = false := by
        intro ha'
        subst ha'
        exact hL c rfl
      have hstep : subSecAux "employment".data "history".data hdrWE 0 fl
            (c :: a' ++ (p ++ v)) =
          c :: subSecAux "employment".data "history".data hdrWE 0
            (isWordCh c) (a' ++ (p ++ v)) →
          ∃ b1 b2, subSecAux "employment".data "history".data hdrWE 0 fl
            (c :: a' ++ (p ++ v)) = b1 ++ (hdrWE ++ b2) := by
        intro hcopy
        obtain ⟨b1, b2, hb⟩ := ih a' (by simp at ha; omega) hL'
          (isWordCh c) hfl'
        exact ⟨c :: b1, b2, by rw [hcopy, hb]; simp⟩
      cases fl with
      | true => exact hstep (subSecAux_step_true _ _ _ c _)
      | false =>
        cases hm : matchSec "employment".data "history".data
            (c :: (a' ++ (p ++ v))) with
        | none => exact hstep (subSecAux_step_nomatch _ _ _ c _ hm)
        | some m =>
          refine ⟨[], subSecAux "employment".data "history".data hdrWE
            (m - 1) true (a' ++ (p ++ v)), ?_⟩
          rw [List.cons_append]
          show subSecAux "employment".data "history".data hdrWE 0 false
            (c :: (a' ++ (p ++ v))) = _
          simp [subSecAux, hm]

/-- The nine later section mappings all satisfy the admissibility
conditions against the canonical header. -/
theorem secSafeAll :
    ((SECTION_MAPPINGS.drop 1).all fun q =>
      secSafeX q.1.data q.2.1.data && !q.1.data.isEmpty) = true := by
  decide

theorem foldSec_preserves (l : List (String × String × String))
    (hl : ∀ q ∈ l, secSafeX q.1.data q.2.1.data = true ∧ q.1.data ≠ []) :
    ∀ a b, ∃ a' b', l.foldl
      (fun acc m => subSec m.1.data m.2.1.data m.2.2.data false acc)
      (a ++ (hdrWE ++ b)) = a' ++ (hdrWE ++ b') := by
  induction l with
  | nil => intro a b; exact ⟨a, b, by simp⟩
  | cons q l ih =>
    intro a b
    have hq := hl q (List.mem_cons_self _ _)
    obtain ⟨a2, hb⟩ := subSecAux_preserves_hdr q.1.data q.2.1.data
      q.2.2.data hq.2 hq.1 a.length a (Nat.le_refl _) false b
    rw [List.foldl_cons]
    have hsub : subSec q.1.data q.2.1.data q.2.2.data false
        (a ++ (hdrWE ++ b)) =
        a2 ++ (hdrWE ++ subSecAux q.1.data q.2.1.data q.2.2.data 0 true b) :=
      hb
    rw [hsub]
    exact ih (fun r hr => hl r (List.mem_cons_of_mem _ hr)) a2 _

/-- The section-standardization pass emits the canonical header on any
text carrying a whole-phrase occurrence of "employment history". -/
theorem standardizeSections_emits (s : List Char) (h : WholeEHOcc s) :
    ∃ a b, standardizeSectionsL s = a ++ (hdrWE ++ b) := by
  obtain ⟨u, p, v, rfl, hp, hL, hR⟩ := h
  obtain ⟨b1, b2, hb⟩ := subSecAux_emits p v hp hR u.length u
    (Nat.le_refl _) hL false (fun _ => rfl)
  have hrest : ∀ q ∈ SECTION_MAPPINGS.drop 1,
      secSafeX q.1.data q.2.1.data = true ∧ q.1.data ≠ [] := by
    intro q hq
    have hall := secSafeAll
    rw [List.all_eq_true] at hall
    have h1 := hall q hq
    rw [Bool.and_eq_true] at h1
    refine ⟨h1.1, ?_⟩
    have h2 : q.1.data.isEmpty = false := by
      cases he : q.1.data.isEmpty
      · rfl
      · rw [he] at h1; simp at h1
    intro he
    rw [he] at h2
    simp at h2
  show ∃ a b, SECTION_MAPPINGS.foldl
    (fun acc m => subSec m.1.data m.2.1.data m.2.2.data false acc)
    (u ++ (p ++ v)) = a ++ (hdrWE ++ b)
  rw [show SECTION_MAPPINGS =
    ("employment", "history", "WORK EXPERIENCE") :: SECTION_MAPPINGS.drop 1
    from rfl, List.foldl_cons]
  have hsub : subSec "employment".data "history".data
      "WORK EXPERIENCE".data false (u ++ (p ++ v)) = b1 ++ (hdrWE ++ b2) :=
    hb
  rw [show subSec ("employment", "history", "WORK EXPERIENCE").1.data
      ("employment", "history", "WORK EXPERIENCE").2.1.data
      ("employment", "history", "WORK EXPERIENCE").2.2.data false
      (u ++ (p ++ v)) =
    subSec "employment".data "history".data "WORK EXPERIENCE".data false
      (u ++ (p ++ v)) from rfl, hsub]
  exact foldSec_preserves _ hrest b1 b2

theorem map_preserves_hdr (f : Char → Char) (hf : hdrWE.map f = hdrWE)
    (a b : List Char) :
    (a ++ (hdrWE ++ b)).map f = a.map f ++ (hdrWE ++ b.map f) := by
  simp [List.map_append, hf]

theorem collapseSpacesAux_split (t : List Char) :
    ∀ a fl, ∃ a2 fl2, collapseSpacesAux fl (a ++ t) =
      a2 ++ collapseSpacesAux fl2 t := by
  intro a
  induction a with
  | nil => intro fl; exact ⟨[], fl, rfl⟩
  | cons c a' ih =>
    intro fl
    by_cases hc : c = ' '
    · obtain ⟨a2, fl2, h⟩ := ih true
      subst hc
      refine ⟨(if fl then [] else [' ']) ++ a2, fl2, ?_⟩
      have hstep : collapseSpacesAux fl ((' ' :: a') ++ t) =
          (if fl then [] else [' ']) ++ collapseSpacesAux true (a' ++ t) :=
        rfl
      rw [hstep, h, ← List.append_assoc]
    · obtain ⟨a2, fl2, h⟩ := ih false
      refine ⟨c :: a2, fl2, ?_⟩
      have hstep : collapseSpacesAux fl ((c :: a') ++ t) =
          c :: collapseSpacesAux false (a' ++ t) := by
        show collapseSpacesAux fl (c :: (a' ++ t)) = _
        simp only [collapseSpacesAux, List.append_eq, if_neg hc]
      rw [hstep, h]
      rfl

theorem collapseSpacesAux_nonspace :
    ∀ cs, cs ≠ [] → (∀ c ∈ cs, c ≠ ' ') → ∀ fl b,
      collapseSpacesAux fl (cs ++ b) = cs ++ collapseSpacesAux false b := by
  intro cs
  induction cs with
  | nil => intro h; exact absurd rfl h
  | cons c cs' ih =>
    intro _ hall fl b
    have hc : c ≠ ' ' := hall c (List.mem_cons_self _ _)
    rw [List.cons_append]
    simp only [collapseSpacesAux, if_neg hc]
    cases cs' with
    | nil => rfl
    | cons d cs'' =>
      rw [ih (by simp) (fun e he => hall e (List.mem_cons_of_mem _ he))
        false b]
      rfl

theorem collapseSpacesAux_hdr (fl : Bool) (b : List Char) :
    collapseSpacesAux fl (hdrWE ++ b) =
      hdrWE ++ collapseSpacesAux false b := by
  have hdec : hdrWE ++ b =
      "WORK".data ++ (' ' :: ("EXPERIENCE".data ++ b)) := rfl
  rw [hdec, collapseSpacesAux_nonspace "WORK".data (by decide)
    (by decide) fl]
  have hsp : collapseSpacesAux false (' ' :: ("EXPERIENCE".data ++ b)) =
      ' ' :: collapseSpacesAux true ("EXPERIENCE".data ++ b) := by
    simp [collapseSpacesAux]
  rw [hsp, collapseSpacesAux_nonspace "EXPERIENCE".data (by decide)
    (by decide) true]
  rfl

theorem collapseNlAux_split (t : List Char) :
    ∀ a k, ∃ a2 k2, collapseNlAux k (a ++ t) =
      a2 ++ collapseNlAux k2 t := by
  intro a
  induction a with
  | nil => intro k; exact ⟨[], k, rfl⟩
  | cons c a' ih =>
    intro k
    by_cases hc : c = '\n'
    · obtain ⟨a2, k2, h⟩ := ih (k + 1)
      subst hc
      have hstep : collapseNlAux k (('\n' :: a') ++ t) =
          collapseNlAux (k + 1) (a' ++ t) := rfl
      exact ⟨a2, k2, by rw [hstep, h]⟩
    · obtain ⟨a2, k2, h⟩ := ih 0
      refine ⟨emitNl k ++ (c :: a2), k2, ?_⟩
      have hstep : collapseNlAux k ((c :: a') ++ t) =
          emitNl k ++ (c :: collapseNlAux 0 (a' ++ t)) := by
        show collapseNlAux k (c :: (a' ++ t)) = _
        simp only [collapseNlAux, List.append_eq, if_neg hc]
      rw [hstep, h]
      simp

theorem collapseNlAux_nonNl :
    ∀ cs, cs ≠ [] → (∀ c ∈ cs, c ≠ '\n') → ∀ k b,
      collapseNlAux k (cs ++ b) =
        emitNl k ++ (cs ++ collapseNlAux 0 b) := by
  intro cs
  induction cs with
  | nil => intro h; exact absurd rfl h
  | cons c cs' ih =>
    intro _ hall k b
    have hc : c ≠ '\n' := hall c (List.mem_cons_self _ _)
    rw [List.cons_append]
    simp only [collapseNlAux, if_neg hc]
    cases cs' with
    | nil => rfl
    | cons d cs'' =>
      rw [ih (by simp) (fun e he => hall e (List.mem_cons_of_mem _ he))
        0 b]
      simp [emitNl]

theorem cleanFormatting_preserves (a b : List Char) :
    ∃ a3 b3, cleanFormattingL (a ++ (hdrWE ++ b)) =
      a3 ++ (hdrWE ++ b3) := by
  simp only [cleanFormattingL]
  rw [map_preserves_hdr mapBullet (by decide),
    map_preserves_hdr mapDash (by decide),
    map_preserves_hdr mapDq (by decide),
    map_preserves_hdr mapSq (by decide)]
  set a' := (((a.map mapBullet).map mapDash).map mapDq).map mapSq
  set b' := (((b.map mapBullet).map mapDash).map mapDq).map mapSq
  obtain ⟨a2, fl2, h2⟩ := collapseSpacesAux_split (hdrWE ++ b') a' false
  show ∃ a3 b3, collapseNl (collapseSpacesAux false (a' ++ (hdrWE ++ b')))
    = a3 ++ (hdrWE ++ b3)
  rw [h2, collapseSpacesAux_hdr fl2 b']
  obtain ⟨a4, k2, h4⟩ := collapseNlAux_split
    (hdrWE ++ collapseSpacesAux false b') a2 0
  show ∃ a3 b3, collapseNlAux 0
    (a2 ++ (hdrWE ++ collapseSpacesAux false b')) = a3 ++ (hdrWE ++ b3)
  rw [h4, collapseNlAux_nonNl hdrWE (by decide) (by decide) k2]
  exact ⟨a4 ++ emitNl k2, collapseNlAux 0 (collapseSpacesAux false b'),
    by simp⟩

theorem subOcc_of_split (pat a b : List Char) (hne : pat ≠ []) :
    subOcc pat (a ++ (pat ++ b)) = true := by
  induction a with
  | nil =>
    rw [List.nil_append]
    cases pat with
    | nil => exact absurd rfl hne
    | cons c cs =>
      show subOcc (c :: cs) (c :: (cs ++ b)) = true
      simp only [subOcc, Bool.or_eq_true]
      left
      exact prefixOf_self_append (c :: cs) b
  | cons x a' ih =>
    rw [List.cons_append]
    simp only [subOcc, Bool.or_eq_true]
    right
    exact ih

set_option maxHeartbeats 1600000 in
/-- C8 (amended): the claimed property fails for fragment occurrences
(see the counterexample), but holds for whole-phrase occurrences: for
every document containing "employment history" in any letter case as a
whole phrase — word boundaries on both sides and a single space between
the words — the rewritten document contains the canonical header
"WORK EXPERIENCE". -/
theorem claim8_amended_whole_phrase_header (doc : String)
    (h : WholeEHOcc doc.data) :
    subOcc "WORK EXPERIENCE".data (optimizeCvText doc "" "").data = true := by
  have h1 := improveWeakPhrasesL_preserves doc.data h
  obtain ⟨a, b, h2⟩ := standardizeSections_emits _ h1
  obtain ⟨a3, b3, h3⟩ := cleanFormatting_preserves a b
  simp only [optimizeCvText]
  show subOcc "WORK EXPERIENCE".data
    (cleanFormattingL (standardizeSectionsL
      (improveWeakPhrasesL doc.data))) = true
  rw [h2, h3]
  exact subOcc_of_split hdrWE a3 b3 (by decide)

theorem claim8_amended_whole_phrase_header_witness :
    subOcc "WORK EXPERIENCE".data
      (optimizeCvText "Employment History" "" "").data = true :=
  claim8_amended_whole_phrase_header "Employment History"
    ⟨[], "Employment History".data, [], by simp, by decide,
     fun c hc => by simp at hc, by decide⟩
